import Mathlib

/-!
Verification of the ggMCP4VSCode tool pipeline.

This development gives a shallow embedding of the file read/write tools of
`src/tools/fileReadWriteTools.ts` and of the request handler of
`src/server/requestHandler.ts` (shipped in `src/config/defaults.ts` here).
File texts are modelled as `List Char` (a JS string is a sequence of code
units; the claims are all about character sequences).  The JS regex-based
helpers are modelled by executable recursive functions that implement the
exact semantics of the regexes appearing in the source
(`/\r\n/g`, `/\r\n|\r/g`, `/\n/g`, and the fully escaped literal pattern of
`replace_specific_text`, including the `$`-substitution rules of
`String.prototype.replace`).
-/

set_option maxHeartbeats 1000000

namespace GgMcp

/-- LF line ending, as a character list. -/
def lf : List Char := ['\n']

/-- CRLF line ending, as a character list. -/
def crlf : List Char := ['\r', '\n']

/-- JS `s.includes('\r\n')`: does the text contain a CRLF pair? -/
def hasCRLF : List Char → Bool
  | [] => false
  | [_] => false
  | c :: d :: rest => if c = '\r' ∧ d = '\n' then true else hasCRLF (d :: rest)

/-- JS `s.replace(/\r\n/g, '\n')`: rewrite every CRLF pair to LF, scanning
left to right (lone `\r` and lone `\n` are untouched). -/
def normCRLF : List Char → List Char
  | [] => []
  | [c] => [c]
  | c :: d :: rest =>
    if c = '\r' ∧ d = '\n' then '\n' :: normCRLF rest
    else c :: normCRLF (d :: rest)

/-- JS `s.replace(/\r\n|\r/g, '\n')`: rewrite every CRLF pair and every lone
CR to LF, scanning left to right. -/
def normEOL : List Char → List Char
  | [] => []
  | [c] => if c = '\r' then ['\n'] else [c]
  | c :: d :: rest =>
    if c = '\r' ∧ d = '\n' then '\n' :: normEOL rest
    else if c = '\r' then '\n' :: normEOL (d :: rest)
    else c :: normEOL (d :: rest)

/-- JS `s.replace(/\n/g, eol)`: rewrite every LF to the given line ending. -/
def expandLF (eol : List Char) : List Char → List Char
  | [] => []
  | c :: rest => if c = '\n' then eol ++ expandLF eol rest else c :: expandLF eol rest

/-- JS `s.split('\n')`: split on LF; always returns at least one (possibly
empty) piece, like the JS method. -/
def splitNL : List Char → List (List Char)
  | [] => [[]]
  | c :: rest =>
    if c = '\n' then [] :: splitNL rest
    else
      match splitNL rest with
      | [] => [[c]]
      | l :: ls => (c :: l) :: ls

/-- Boolean test that `pat` is an initial segment of `s`. -/
def startsWithChars : List Char → List Char → Bool
  | [], _ => true
  | _ :: _, [] => false
  | p :: ps, c :: cs => if p = c then startsWithChars ps cs else false

/-- The pattern occurs somewhere in the text (as a contiguous segment). -/
def OccursIn (pat s : List Char) : Prop := ∃ a b, s = a ++ pat ++ b

/-!
Global literal regex matching.  `replace_specific_text` builds
`new RegExp(escapeRegExp(oldText), 'gs')`; `escapeRegExp` backslash-escapes
every regex metacharacter (`.*+?^${}()|[]\`), so the compiled pattern matches
exactly the literal old text (the `s` flag only affects `.`, which is escaped
away).  We therefore model matching literally.  The functions carry a fuel
argument (any fuel larger than the text length gives the JS behaviour) so
that they are structurally recursive and kernel-reducible.  An empty pattern
matches at every position and the scan advances by one, exactly as JS global
matching does via `AdvanceStringIndex`.
-/

/-- Start positions of the leftmost non-overlapping matches of the literal
pattern, as found by a JS global regex scan starting at `pos`. -/
def matchPositionsFuel (pat : List Char) : Nat → List Char → Nat → List Nat
  | 0, _, _ => []
  | _ + 1, [], pos => if pat.isEmpty then [pos] else []
  | fuel + 1, c :: rest, pos =>
    if startsWithChars pat (c :: rest) then
      if pat.isEmpty then pos :: matchPositionsFuel pat fuel rest (pos + 1)
      else pos :: matchPositionsFuel pat fuel ((c :: rest).drop pat.length) (pos + pat.length)
    else matchPositionsFuel pat fuel rest (pos + 1)

/-- All match start positions of the literal pattern in `s` (JS
`s.match(regex)` with a global literal regex lists exactly these matches). -/
def matchPositions (pat s : List Char) : List Nat :=
  matchPositionsFuel pat (s.length + 1) s 0

/-- ES `GetSubstitution` for a replacement template with zero capture groups:
`$$` yields `$`, `$&` the matched text, a `$` followed by a backquote the
part of the original string before the match, `$` followed by a single quote
the part after the match; every other character (including `$` followed by a
digit, since there are no capture groups) is copied literally. -/
def gsub (matched pre post : List Char) : List Char → List Char
  | [] => []
  | '$' :: '$' :: rest => '$' :: gsub matched pre post rest
  | '$' :: '&' :: rest => matched ++ gsub matched pre post rest
  | '$' :: c :: rest =>
    if c = Char.ofNat 96 then pre ++ gsub matched pre post rest
    else if c = Char.ofNat 39 then post ++ gsub matched pre post rest
    else '$' :: gsub matched pre post (c :: rest)
  | c :: rest => c :: gsub matched pre post rest

/-- JS `s.replace(regex, rep)` for a global literal regex: each match is
replaced by `GetSubstitution`-processed `rep`; `pre` accumulates the part of
the original string already scanned (needed for the positional `$`
templates). -/
def jsRepFuel (pat rep : List Char) : Nat → List Char → List Char → List Char
  | 0, _, _ => []
  | _ + 1, pre, [] => if pat.isEmpty then gsub [] pre [] rep else []
  | fuel + 1, pre, c :: rest =>
    if startsWithChars pat (c :: rest) then
      if pat.isEmpty then
        gsub [] pre (c :: rest) rep ++ c :: jsRepFuel pat rep fuel (pre ++ [c]) rest
      else
        gsub pat pre ((c :: rest).drop pat.length) rep ++
          jsRepFuel pat rep fuel (pre ++ pat) ((c :: rest).drop pat.length)
    else c :: jsRepFuel pat rep fuel (pre ++ [c]) rest

/-- JS `s.replace(new RegExp(escapeRegExp pat, 'gs'), rep)`. -/
def jsReplaceAll (pat rep s : List Char) : List Char :=
  jsRepFuel pat rep (s.length + 1) [] s

/-- Split `s` on the leftmost non-overlapping occurrences of the (nonempty)
literal pattern; the spec describes literal replace-all as split-and-join. -/
def splitOnPatFuel (pat : List Char) : Nat → List Char → List (List Char)
  | 0, _ => [[]]
  | _ + 1, [] => [[]]
  | fuel + 1, c :: rest =>
    if ¬pat.isEmpty ∧ startsWithChars pat (c :: rest) then
      [] :: splitOnPatFuel pat fuel ((c :: rest).drop pat.length)
    else
      match splitOnPatFuel pat fuel rest with
      | [] => [[c]]
      | l :: ls => (c :: l) :: ls

/-- Split on a nonempty literal pattern. -/
def splitOnPat (pat s : List Char) : List (List Char) :=
  splitOnPatFuel pat (s.length + 1) s

/-!
The tool algorithms of `src/tools/fileReadWriteTools.ts`.
-/

/-- Line-ending detection used by the mutating tools:
`currentContent.includes('\r\n') ? '\r\n' : '\n'`. -/
def detectLineEnding (s : List Char) : List Char :=
  if hasCRLF s then crlf else lf

/-- Body of `ReplaceFileContentAtPositionTool.execute` after its range check
has passed: normalize to LF, split, splice (single-line positional overwrite
via `substring`, or multi-line `splice`), and rejoin with the detected
original line ending.  `Int.toNat` models the clamping of JS `substring`. -/
def rangeReplaceBuild (currentContent : List Char) (startLine endLine : Int)
    (content : List Char) (offset : Int) : List Char :=
  let originalLineEnding := detectLineEnding currentContent
  let lines := splitNL (normCRLF currentContent)
  let startIndex := (startLine - 1).toNat
  let endIndex := (endLine - 1).toNat
  let adaptedContent := normCRLF content
  let newLines :=
    if startLine = endLine then
      let lineToModify := lines.getD startIndex []
      lines.set startIndex
        (lineToModify.take offset.toNat ++ adaptedContent ++
          lineToModify.drop (offset + adaptedContent.length).toNat)
    else
      lines.take startIndex ++ splitNL adaptedContent ++ lines.drop (endIndex + 1)
  List.intercalate originalLineEnding newLines

/-- `ReplaceFileContentAtPositionTool.execute`, pure part: validate
`startLine < 1 || endLine > lines.length || startLine > endLine` against the
LF-normalized line count, else build the new full text. -/
def rangeReplaceCore (currentContent : List Char) (startLine endLine : Int)
    (content : List Char) (offset : Int) : Except String (List Char) :=
  if startLine < 1 ∨ endLine > ((splitNL (normCRLF currentContent)).length : Int) ∨
      startLine > endLine then
    Except.error "Invalid line numbers"
  else
    Except.ok (rangeReplaceBuild currentContent startLine endLine content offset)

/-- `ReplaceSpecificTextTool.execute`, pure part: detect the original line
ending, normalize all three texts with `/\r\n|\r/g`, fail if the escaped
literal pattern has no match (`regex.test`), otherwise replace every match
(JS `String.replace` semantics, including `$` templates in the new text),
count the matches, and restore the original line-ending style with
`/\n/g`. -/
def replaceSpecificTextCore (fileContent oldText newText : List Char) :
    Except String (List Char × Nat) :=
  let originalLineEnding := detectLineEnding fileContent
  let currentContent := normEOL fileContent
  let normalizedOldText := normEOL oldText
  let normalizedNewText := normEOL newText
  if (matchPositions normalizedOldText currentContent).isEmpty then
    Except.error "no occurrences found"
  else
    let newContent := jsReplaceAll normalizedOldText normalizedNewText currentContent
    let replacementCount := (matchPositions normalizedOldText currentContent).length
    Except.ok (expandLF originalLineEnding newContent, replacementCount)

/-- Modelled from the spec: literal replace-all as the plain substring
split-and-join the design notes prescribe ("replace every occurrence" with
no pattern semantics on either side).  Used to compare the code's behaviour
with the claimed literal replacement. -/
def specLiteralReplaceAll (pat rep s : List Char) : List Char :=
  List.intercalate rep (splitOnPat pat s)

/-- Modelled from the spec: `AbsFileTools.adaptLineEndings` is not under
`src/`.  Per the spec, append rewrites the appended content's internal line
endings to the existing file's dominant style (CRLF if the existing text
contains any CRLF, else LF) and touches nothing else. -/
def adaptLineEndings (existingContent content : List Char) : List Char :=
  expandLF (detectLineEnding existingContent) (normEOL content)

/-- `AppendFileContentTool.execute`, pure part: the new full text is the
existing text, byte-for-byte, with the adapted content concatenated. -/
def appendCore (existingContent content : List Char) : List Char :=
  existingContent ++ adaptLineEndings existingContent content

/-- The single-line positional overwrite of range replace:
`line.substring(0, offset) + content + line.substring(offset + content.length)`
(for a nonnegative offset). -/
def spliceLine (line rep : List Char) (off : Nat) : List Char :=
  line.take off ++ rep ++ line.drop (off + rep.length)

/-- A text is properly CRLF-joined when it is exactly the CRLF-join of its
own LF-normalized lines and those lines contain no stray `\n` or `\r`. -/
def CRLFjoined (s : List Char) : Prop :=
  (∀ l ∈ splitNL (normCRLF s), '\n' ∉ l ∧ '\r' ∉ l) ∧
  s = List.intercalate crlf (splitNL (normCRLF s))

instance (s : List Char) : Decidable (CRLFjoined s) := by
  unfold CRLFjoined
  infer_instance

/-- Invariant making an LF-join free of CRLF pairs: no piece contains a CRLF
pair and no piece other than the last ends in `\r`. -/
def JoinNoCRLF : List (List Char) → Prop
  | [] => True
  | [l] => hasCRLF l = false
  | l :: m :: ms => hasCRLF l = false ∧ l.getLast? ≠ some '\r' ∧ JoinNoCRLF (m :: ms)

/-!
Response envelopes (`src/types/toolInterfaces.ts`) and the response builder.
The builder (`responseHandler`) itself is not under `src/`; its `success` and
`failure` shapes are modelled from the spec.
-/

/-- One MCP content item; the tools in scope only produce text items. -/
structure McpContentItem where
  type : String
  text : String
deriving DecidableEq

/-- Structured content attached by `get_file_text_by_path` (built inline in
its `execute`). -/
structure GetFileStructured where
  pathInProject : String
  encoding : String
  content : List Char
  truncated : Bool
  length : Nat
  totalLength : Nat
  maxCharacters : Int
deriving DecidableEq

/-- The MCP tool result: content items, error flag, optional structured
content. -/
structure Envelope where
  content : List McpContentItem
  isError : Bool
  structuredContent : Option GetFileStructured
deriving DecidableEq

/-- Modelled from the spec: `responseHandler.success(data)` produces a single
text content item carrying a serialized form of the data, with
`isError = false`. -/
def successEnv (data : String) : Envelope :=
  Envelope.mk [McpContentItem.mk "text" data] false none

/-- Modelled from the spec: `responseHandler.failure(message)` produces a
single text content item and `isError = true`. -/
def failureEnv (message : String) : Envelope :=
  Envelope.mk [McpContentItem.mk "text" message] true none

/-!
Event traces for the file-mutating tools.  Each tool's `execute` is modelled
as a function from its inputs (plus two oracles: whether the authoritative
write succeeds and whether the deferred cache update succeeds) to the ordered
list of side-effecting steps it performs and the envelope it returns.  The
`respond` event marks the point where the prepared response is handed back;
everything after it is the `setTimeout`-deferred work.  `writeFileSimple`,
`FileCache.updateCache`, `FileCache.invalidate` and `openFileInEditorTab`
are not under `src/`; they are abstracted as the corresponding events, and
`handleFileSystemError` is modelled from the spec as producing a failure
envelope.
-/

/-- Side-effecting steps of a mutating tool's `execute`. -/
inductive Ev where
  | read : String → Ev
  | createDir : String → Ev
  | write : String → List Char → Ev
  | respond : Ev
  | cacheUpdate : String → List Char → Ev
  | cacheInvalidate : String → Ev
  | openEditor : String → String → Ev
deriving DecidableEq

/-- The deferred block common to all five mutating tools: update the cache;
on failure of the update, invalidate the same path; then open the file in an
editor tab. -/
def deferredCacheEvents (path : String) (text : List Char) (cacheOk : Bool)
    (tool : String) : List Ev :=
  (if cacheOk then [Ev.cacheUpdate path text]
   else [Ev.cacheUpdate path text, Ev.cacheInvalidate path]) ++ [Ev.openEditor path tool]

/-- `RewriteFileContentTool.execute`: write the full new text, prepare the
success response, schedule the deferred cache update and editor open, return
the response.  A failed write is caught and turned into a failure
envelope. -/
def rewriteFileContentExec (path : String) (text : List Char)
    (writeOk cacheOk : Bool) : List Ev × Envelope :=
  if writeOk then
    ([Ev.write path text, Ev.respond] ++ deferredCacheEvents path text cacheOk "rewrite_file_content",
      successEnv "rewritten")
  else ([Ev.respond], failureEnv "Error rewriting file")

/-- `CreateNewFileWithTextTool.execute`: ensure the parent directory, write,
respond, then the deferred block. -/
def createNewFileWithTextExec (path : String) (text : List Char)
    (writeOk cacheOk : Bool) : List Ev × Envelope :=
  if writeOk then
    ([Ev.createDir path, Ev.write path text, Ev.respond] ++
        deferredCacheEvents path text cacheOk "create_new_file_with_text",
      successEnv "created")
  else ([Ev.createDir path, Ev.respond], failureEnv "Error creating file")

/-- `ReplaceFileContentAtPositionTool.execute`: read, run the range-replace
algorithm (returning the failure envelope before any write when the range is
invalid), write the new text, respond, then the deferred block. -/
def replaceFileContentAtPositionExec (path : String) (currentContent : List Char)
    (startLine endLine : Int) (content : List Char) (offset : Int)
    (writeOk cacheOk : Bool) : List Ev × Envelope :=
  match rangeReplaceCore currentContent startLine endLine content offset with
  | Except.error msg => ([Ev.read path, Ev.respond], failureEnv msg)
  | Except.ok newContent =>
    if writeOk then
      ([Ev.read path, Ev.write path newContent, Ev.respond] ++
          deferredCacheEvents path newContent cacheOk "replace_file_content_at_position",
        successEnv "ok")
    else ([Ev.read path, Ev.respond], failureEnv "Error replacing content")

/-- `AppendFileContentTool.execute`: fail if the file does not exist, read
the existing content, write existing text plus adapted content, respond,
then the deferred block. -/
def appendFileContentExec (path : String) (fileExists : Bool)
    (existingContent content : List Char) (writeOk cacheOk : Bool) :
    List Ev × Envelope :=
  if fileExists then
    let newContent := appendCore existingContent content
    if writeOk then
      ([Ev.read path, Ev.write path newContent, Ev.respond] ++
          deferredCacheEvents path newContent cacheOk "append_file_content",
        successEnv "appended")
    else ([Ev.read path, Ev.respond], failureEnv "Error appending to file")
  else ([Ev.respond], failureEnv "File does not exist")

/-- `ReplaceSpecificTextTool.execute`: read, run the literal replace-all
(failing when there is no occurrence), write the final content, respond,
then the deferred block; any thrown error is caught and reported as
`replacement failed`. -/
def replaceSpecificTextExec (path : String) (fileContent oldText newText : List Char)
    (writeOk cacheOk : Bool) : List Ev × Envelope :=
  match replaceSpecificTextCore fileContent oldText newText with
  | Except.error msg => ([Ev.read path, Ev.respond], failureEnv msg)
  | Except.ok (finalContent, _count) =>
    if writeOk then
      ([Ev.read path, Ev.write path finalContent, Ev.respond] ++
          deferredCacheEvents path finalContent cacheOk "replace_specific_text",
        successEnv "replaced")
    else ([Ev.read path, Ev.respond], failureEnv "replacement failed")

/-- The write-then-respond-then-defer protocol shared by the mutating tools:
the returned envelope is the same whether or not the deferred cache update
succeeds and is a success; in every run the trace splits at the `respond`
event, with the authoritative write strictly before it, no cache update
before it, the cache update of the written text strictly after it, and, when
the deferred update fails, an invalidate of the same path after it. -/
def DeferredWriteOrder (path : String) (run : Bool → List Ev × Envelope) : Prop :=
  (run true).2 = (run false).2 ∧
  (run true).2.isError = false ∧
  ∀ cacheOk : Bool, ∃ pre post newText,
    (run cacheOk).1 = pre ++ Ev.respond :: post ∧
    Ev.respond ∉ pre ∧
    Ev.write path newText ∈ pre ∧
    (∀ t, Ev.cacheUpdate path t ∉ pre) ∧
    Ev.cacheUpdate path newText ∈ post ∧
    (cacheOk = false → Ev.cacheInvalidate path ∈ post)

/-!
The request handler (`RequestHandler` in `src/config/defaults.ts`).  The
interceptor chain (`src/server/interceptors.ts`) is not under `src/`; its
before and after phases are universally quantified oracles, and the
`RequestContext` fields are the ones `defaults.ts` uses (`toolName`,
`params`, `method`, `path`, `cachedResponse`).  Handlers and oracles model a
thrown JS error as `Except.error`; the handler's `try`/`catch` is the outer
error handling that routes to `responseHandler.handleServerError`, which is
modelled from the spec as sending a failure envelope (never re-throwing).
-/

/-- Request context flowing through the before-interceptor chain. -/
structure RequestContext (α : Type) where
  toolName : String
  params : α
  method : String
  path : String
  cachedResponse : Option Envelope

/-- Response context flowing through the after-interceptor chain. -/
structure ResponseContext where
  response : Envelope
  statusCode : Nat

/-- A registered tool as the request handler sees it. -/
structure ToolModel (α : Type) where
  handle : α → Except String Envelope

/-- What the handler sends back to the transport. -/
inductive Sent where
  | json : Nat → Envelope → Sent
  | resp : ResponseContext → Sent
  | serverError : Envelope → Sent

/-- Modelled from the spec: `responseHandler.handleServerError` converts a
caught error into a failure envelope sent to the caller (never a transport
fault). -/
def handleServerErrorModel (contextMsg err : String) : Sent :=
  Sent.serverError (failureEnv (contextMsg ++ ": " ++ err))

/-- The envelope the caller receives, whichever way it was sent. -/
def Sent.envelope : Sent → Envelope
  | Sent.json _ e => e
  | Sent.resp rc => rc.response
  | Sent.serverError e => e

/-- Marks that the tool handler was actually invoked. -/
inductive HEv where
  | handlerInvoked : String → HEv
deriving DecidableEq

/-- `RequestHandler.handleToolExecution`: registry lookup (404 failure
envelope when absent), before-phase (null return cancels with a standardized
failure; an attached cached response is returned directly), handler
invocation on the original params, after-phase, send; every thrown error is
caught and routed to `handleServerError`. -/
def handleToolExecution {α : Type} (lookup : String → Option (ToolModel α))
    (before : RequestContext α → Except String (Option (RequestContext α)))
    (after : RequestContext α → ResponseContext → Except String ResponseContext)
    (toolName : String) (params : α) (method path : String) : List HEv × Sent :=
  match lookup toolName with
  | none => ([], Sent.json 404 (failureEnv ("Unknown tool: " ++ toolName)))
  | some tool =>
    match before (RequestContext.mk toolName params method path none) with
    | Except.error e => ([], handleServerErrorModel ("Error executing tool " ++ toolName) e)
    | Except.ok none => ([], Sent.json 200 (failureEnv "Request cancelled by interceptor"))
    | Except.ok (some ctx) =>
      match ctx.cachedResponse with
      | some cached => ([], Sent.json 200 cached)
      | none =>
        match tool.handle params with
        | Except.error e =>
          ([HEv.handlerInvoked toolName],
            handleServerErrorModel ("Error executing tool " ++ toolName) e)
        | Except.ok result =>
          match after ctx (ResponseContext.mk result 200) with
          | Except.error e =>
            ([HEv.handlerInvoked toolName],
              handleServerErrorModel ("Error executing tool " ++ toolName) e)
          | Except.ok rc => ([HEv.handlerInvoked toolName], Sent.resp rc)

/-- `RequestHandler.executeToolDirect`: unknown tools and thrown handler
errors both become failure envelopes. -/
def executeToolDirect {α : Type} (lookup : String → Option (ToolModel α))
    (toolName : String) (args : α) : Envelope :=
  match lookup toolName with
  | none => failureEnv ("Unknown tool: " ++ toolName)
  | some tool =>
    match tool.handle args with
    | Except.ok result => result
    | Except.error e => failureEnv e

/-!
`GetFileTextByPathTool.execute` (`src/tools/fileReadWriteTools.ts`) and the
`Defaults.Limits.maxFileReadCharacters` default (`src/config/defaults.ts`).
-/

/-- `Defaults.Limits.maxFileReadCharacters`. -/
def maxFileReadCharacters : Int := 100000

/-- The effective character limit: the `maxCharacters` argument when it is a
positive (finite) number, otherwise the default. -/
def effectiveMaxCharacters (maxCharacters : Option Int) : Int :=
  match maxCharacters with
  | some m => if 0 < m then m else maxFileReadCharacters
  | none => maxFileReadCharacters

/-- The encoding check of `get_file_text_by_path`: anything other than a
missing encoding or (case-insensitive) utf-8 / utf8 is rejected. -/
def isEncodingUnsupported : Option String → Bool
  | none => false
  | some e => if e.toLower = "utf-8" ∨ e.toLower = "utf8" then false else true

/-- `GetFileTextByPathTool.execute`, pure part: reject unsupported encodings,
truncate the decoded text to the effective limit (the limit is always
positive, so the JS truthiness guard on it never fires), and build the
response with its structured content. -/
def getFileTextByPathExecute (pathInProject : String) (encoding : Option String)
    (fullText : List Char) (maxCharacters : Option Int) : Envelope :=
  if isEncodingUnsupported encoding then
    failureEnv "Only utf-8 encoding is currently supported for get_file_text_by_path"
  else
    let originalLength := fullText.length
    let eff := effectiveMaxCharacters maxCharacters
    let text := if (originalLength : Int) > eff then fullText.take eff.toNat else fullText
    let truncated := if (originalLength : Int) > eff then true else false
    Envelope.mk [McpContentItem.mk "text" (String.mk text)] false
      (some (GetFileStructured.mk pathInProject "utf-8" text truncated
        text.length originalLength eff))

/-!
Basic lemmas about the text primitives.
-/

theorem startsWithChars_iff (pat : List Char) :
    ∀ s : List Char, startsWithChars pat s = true ↔ ∃ t, s = pat ++ t := by
  induction pat with
  | nil => intro s; simp [startsWithChars]
  | cons p ps ih =>
    intro s
    cases s with
    | nil => simp [startsWithChars]
    | cons c cs =>
      by_cases hp : p = c
      · subst hp
        rw [startsWithChars, if_pos rfl, ih cs]
        constructor
        · rintro ⟨t, ht⟩
          exact ⟨t, by rw [ht, List.cons_append]⟩
        · rintro ⟨t, ht⟩
          rw [List.cons_append, List.cons_eq_cons] at ht
          exact ⟨t, ht.2⟩
      · rw [startsWithChars, if_neg hp]
        constructor
        · intro h; exact absurd h (by decide)
        · rintro ⟨t, ht⟩
          rw [List.cons_append, List.cons_eq_cons] at ht
          exact absurd ht.1.symm hp

/-!
Lemmas about splitting on LF and joining with a separator.
-/

theorem splitNL_ne_nil (s : List Char) : splitNL s ≠ [] := by
  cases s with
  | nil => simp [splitNL]
  | cons c rest =>
    rw [splitNL]
    by_cases h : c = '\n'
    · simp [h]
    · rw [if_neg h]
      cases splitNL rest <;> simp

theorem mem_splitNL_no_newline :
    ∀ (s l : List Char), l ∈ splitNL s → '\n' ∉ l := by
  intro s
  induction s with
  | nil =>
    intro l hl
    simp [splitNL] at hl
    simp [hl]
  | cons c rest ih =>
    intro l hl
    rw [splitNL] at hl
    by_cases h : c = '\n'
    · rw [if_pos h] at hl
      rcases List.mem_cons.mp hl with h1 | h1
      · simp [h1]
      · exact ih l h1
    · rw [if_neg h] at hl
      cases hsp : splitNL rest with
      | nil => exact absurd hsp (splitNL_ne_nil rest)
      | cons m ms =>
        rw [hsp] at hl
        rcases List.mem_cons.mp hl with h1 | h1
        · subst h1
          intro hmem
          rcases List.mem_cons.mp hmem with h2 | h2
          · exact h h2.symm
          · exact ih m (by rw [hsp]; exact List.mem_cons_self m ms) h2
        · exact ih l (by rw [hsp]; exact List.mem_cons_of_mem m h1)

theorem mem_of_mem_splitNL :
    ∀ (s l : List Char), l ∈ splitNL s → ∀ c ∈ l, c ∈ s := by
  intro s
  induction s with
  | nil =>
    intro l hl c hc
    simp [splitNL] at hl
    subst hl
    simp at hc
  | cons a rest ih =>
    intro l hl c hc
    rw [splitNL] at hl
    by_cases h : a = '\n'
    · rw [if_pos h] at hl
      rcases List.mem_cons.mp hl with h1 | h1
      · subst h1; simp at hc
      · exact List.mem_cons_of_mem a (ih l h1 c hc)
    · rw [if_neg h] at hl
      cases hsp : splitNL rest with
      | nil => exact absurd hsp (splitNL_ne_nil rest)
      | cons m ms =>
        rw [hsp] at hl
        rcases List.mem_cons.mp hl with h1 | h1
        · subst h1
          rcases List.mem_cons.mp hc with h2 | h2
          · simp [h2]
          · exact List.mem_cons_of_mem a (ih m (by rw [hsp]; exact List.mem_cons_self m ms) c h2)
        · exact List.mem_cons_of_mem a (ih l (by rw [hsp]; exact List.mem_cons_of_mem m h1) c hc)

theorem intercalate_single {α : Type} (sep x : List α) : List.intercalate sep [x] = x := by
  simp [List.intercalate, List.intersperse]

theorem intercalate_cons_cons {α : Type} (sep x y : List α) (zs : List (List α)) :
    List.intercalate sep (x :: y :: zs) = x ++ sep ++ List.intercalate sep (y :: zs) := by
  simp [List.intercalate, List.intersperse]

theorem intercalate_cons_head {α : Type} (sep : List α) (c : α) (l : List α)
    (ls : List (List α)) :
    List.intercalate sep ((c :: l) :: ls) = c :: List.intercalate sep (l :: ls) := by
  cases ls with
  | nil => rw [intercalate_single, intercalate_single]
  | cons m ms =>
    rw [intercalate_cons_cons, intercalate_cons_cons]
    simp

theorem mem_of_mem_intercalate {α : Type} (sep : List α) :
    ∀ (L : List (List α)) (c : α), c ∈ List.intercalate sep L →
      (∃ l ∈ L, c ∈ l) ∨ c ∈ sep := by
  intro L
  induction L with
  | nil =>
    intro c hc
    simp [List.intercalate, List.intersperse] at hc
  | cons l ls ih =>
    intro c hc
    cases ls with
    | nil =>
      rw [intercalate_single] at hc
      exact Or.inl ⟨l, by simp, hc⟩
    | cons m ms =>
      rw [intercalate_cons_cons] at hc
      rcases List.mem_append.mp hc with h1 | h1
      · rcases List.mem_append.mp h1 with h2 | h2
        · exact Or.inl ⟨l, by simp, h2⟩
        · exact Or.inr h2
      · rcases ih c h1 with ⟨x, hx, hcx⟩ | h2
        · exact Or.inl ⟨x, List.mem_cons_of_mem l hx, hcx⟩
        · exact Or.inr h2

theorem splitNL_append_newline (rest : List Char) :
    ∀ l : List Char, '\n' ∉ l → splitNL (l ++ '\n' :: rest) = l :: splitNL rest := by
  intro l
  induction l with
  | nil => intro _; simp [splitNL]
  | cons c l' ih =>
    intro h
    have hc : ¬(c = '\n') := fun hcc => h (by simp [hcc])
    have h' : '\n' ∉ l' := fun hm => h (List.mem_cons_of_mem c hm)
    rw [List.cons_append, splitNL, if_neg hc, ih h']

theorem splitNL_of_no_newline (s : List Char) (h : '\n' ∉ s) : splitNL s = [s] := by
  induction s with
  | nil => rfl
  | cons c rest ih =>
    have hc : ¬(c = '\n') := fun hcc => h (by simp [hcc])
    have h' : '\n' ∉ rest := fun hm => h (List.mem_cons_of_mem c hm)
    rw [splitNL, if_neg hc, ih h']

theorem splitNL_intercalate :
    ∀ L : List (List Char), L ≠ [] → (∀ l ∈ L, '\n' ∉ l) →
      splitNL (List.intercalate lf L) = L := by
  intro L
  induction L with
  | nil => intro hne _; exact absurd rfl hne
  | cons l ls ih =>
    intro _ h
    cases ls with
    | nil =>
      rw [intercalate_single]
      exact splitNL_of_no_newline l (h l (by simp))
    | cons m ms =>
      rw [intercalate_cons_cons,
        show l ++ lf ++ List.intercalate lf (m :: ms) =
          l ++ '\n' :: List.intercalate lf (m :: ms) from by simp [lf],
        splitNL_append_newline _ _ (h l (by simp)),
        ih (by simp) (fun x hx => h x (List.mem_cons_of_mem l hx))]

theorem intercalate_lf_splitNL (s : List Char) : List.intercalate lf (splitNL s) = s := by
  induction s with
  | nil => rfl
  | cons c rest ih =>
    cases hsp : splitNL rest with
    | nil => exact absurd hsp (splitNL_ne_nil rest)
    | cons m ms =>
      rw [hsp] at ih
      by_cases h : c = '\n'
      · subst h
        rw [splitNL, if_pos rfl, hsp, intercalate_cons_cons, ih]
        simp [lf]
      · rw [splitNL, if_neg h, hsp]
        show List.intercalate lf ((c :: m) :: ms) = c :: rest
        rw [intercalate_cons_head, ih]

theorem two_le_length_splitNL_of_newline :
    ∀ s : List Char, '\n' ∈ s → 2 ≤ (splitNL s).length := by
  intro s
  induction s with
  | nil => intro h; simp at h
  | cons c rest ih =>
    intro h
    by_cases hc : c = '\n'
    · rw [splitNL, if_pos hc]
      have := splitNL_ne_nil rest
      have : 1 ≤ (splitNL rest).length := List.length_pos.mpr this
      simp
      omega
    · have hmem : '\n' ∈ rest := by
        rcases List.mem_cons.mp h with h1 | h1
        · exact absurd h1.symm hc
        · exact h1
      rw [splitNL, if_neg hc]
      cases hsp : splitNL rest with
      | nil => exact absurd hsp (splitNL_ne_nil rest)
      | cons m ms =>
        have := ih hmem
        rw [hsp] at this
        simpa using this

/-!
Lemmas about CRLF detection and normalization.
-/

theorem hasCRLF_cons_cons (c d : Char) (rest : List Char) :
    hasCRLF (c :: d :: rest) =
      if c = '\r' ∧ d = '\n' then true else hasCRLF (d :: rest) := rfl

theorem newline_mem_of_hasCRLF : ∀ s : List Char, hasCRLF s = true → '\n' ∈ s := by
  intro s
  induction s using hasCRLF.induct with
  | case1 => simp [hasCRLF]
  | case2 c => simp [hasCRLF]
  | case3 c d rest h =>
    intro _
    simp [h.2]
  | case4 c d rest h ih =>
    intro hh
    rw [hasCRLF, if_neg h] at hh
    exact List.mem_cons_of_mem c (ih hh)

theorem cr_mem_of_hasCRLF : ∀ s : List Char, hasCRLF s = true → '\r' ∈ s := by
  intro s
  induction s using hasCRLF.induct with
  | case1 => simp [hasCRLF]
  | case2 c => simp [hasCRLF]
  | case3 c d rest h =>
    intro _
    simp [h.1]
  | case4 c d rest h ih =>
    intro hh
    rw [hasCRLF, if_neg h] at hh
    exact List.mem_cons_of_mem c (ih hh)

theorem hasCRLF_eq_false_of_no_cr (s : List Char) (h : '\r' ∉ s) : hasCRLF s = false := by
  cases hc : hasCRLF s
  · rfl
  · exact absurd (cr_mem_of_hasCRLF s hc) h

theorem hasCRLF_eq_false_of_no_newline (s : List Char) (h : '\n' ∉ s) :
    hasCRLF s = false := by
  cases hc : hasCRLF s
  · rfl
  · exact absurd (newline_mem_of_hasCRLF s hc) h

theorem normCRLF_of_no_crlf : ∀ s : List Char, hasCRLF s = false → normCRLF s = s := by
  intro s
  induction s using normCRLF.induct with
  | case1 => intro _; rfl
  | case2 c => intro _; rfl
  | case3 c d rest h ih =>
    intro hh
    rw [hasCRLF, if_pos h] at hh
    exact absurd hh (by decide)
  | case4 c d rest h ih =>
    intro hh
    rw [hasCRLF, if_neg h] at hh
    rw [normCRLF, if_neg h, ih hh]

theorem mem_of_mem_normCRLF :
    ∀ (s : List Char) (c : Char), c ∈ normCRLF s → c ∈ s ∨ c = '\n' := by
  intro s
  induction s using normCRLF.induct with
  | case1 =>
    intro c hc
    simp [normCRLF] at hc
  | case2 a =>
    intro c hc
    simp [normCRLF] at hc
    exact Or.inl (by simp [hc])
  | case3 a b rest h ih =>
    intro c hc
    rw [normCRLF, if_pos h] at hc
    rcases List.mem_cons.mp hc with h1 | h1
    · exact Or.inr h1
    · rcases ih c h1 with h2 | h2
      · exact Or.inl (by simp [h2])
      · exact Or.inr h2
  | case4 a b rest h ih =>
    intro c hc
    rw [normCRLF, if_neg h] at hc
    rcases List.mem_cons.mp hc with h1 | h1
    · exact Or.inl (by simp [h1])
    · rcases ih c h1 with h2 | h2
      · exact Or.inl (List.mem_cons_of_mem a h2)
      · exact Or.inr h2

theorem newline_mem_normCRLF : ∀ s : List Char, hasCRLF s = true → '\n' ∈ normCRLF s := by
  intro s
  induction s using normCRLF.induct with
  | case1 => simp [hasCRLF]
  | case2 c => simp [hasCRLF]
  | case3 a b rest h ih =>
    intro _
    rw [normCRLF, if_pos h]
    simp
  | case4 a b rest h ih =>
    intro hh
    rw [hasCRLF, if_neg h] at hh
    rw [normCRLF, if_neg h]
    exact List.mem_cons_of_mem a (ih hh)

theorem normCRLF_append_crlf :
    ∀ (l rest : List Char), '\n' ∉ l →
      normCRLF (l ++ '\r' :: '\n' :: rest) = l ++ '\n' :: normCRLF rest := by
  intro l
  induction l with
  | nil =>
    intro rest _
    rw [List.nil_append, normCRLF, if_pos ⟨rfl, rfl⟩, List.nil_append]
  | cons c l' ih =>
    intro rest h
    have h' : '\n' ∉ l' := fun hm => h (List.mem_cons_of_mem c hm)
    cases l' with
    | nil =>
      have hc : ¬(c = '\r' ∧ '\r' = '\n') := fun hpair => absurd hpair.2 (by decide)
      rw [List.cons_append, List.nil_append, normCRLF, if_neg hc, normCRLF,
        if_pos ⟨rfl, rfl⟩]
      rfl
    | cons c2 l'' =>
      have hc2 : ¬(c = '\r' ∧ c2 = '\n') := fun hpair => h' (by simp [hpair.2])
      rw [List.cons_append, List.cons_append, normCRLF, if_neg hc2, ← List.cons_append,
        ih rest h']
      simp

theorem normCRLF_intercalate_crlf :
    ∀ L : List (List Char), (∀ l ∈ L, '\n' ∉ l) →
      normCRLF (List.intercalate crlf L) = List.intercalate lf L := by
  intro L
  induction L with
  | nil => intro _; rfl
  | cons l ls ih =>
    intro h
    cases ls with
    | nil =>
      rw [intercalate_single, intercalate_single]
      exact normCRLF_of_no_crlf l (hasCRLF_eq_false_of_no_newline l (h l (by simp)))
    | cons m ms =>
      rw [intercalate_cons_cons, intercalate_cons_cons,
        show l ++ crlf ++ List.intercalate crlf (m :: ms) =
          l ++ '\r' :: '\n' :: List.intercalate crlf (m :: ms) from by simp [crlf],
        normCRLF_append_crlf _ _ (h l (by simp)),
        ih (fun x hx => h x (List.mem_cons_of_mem l hx))]
      simp [lf]

theorem hasCRLF_newline_cons (rest : List Char) : hasCRLF ('\n' :: rest) = hasCRLF rest := by
  cases rest with
  | nil => rfl
  | cons d r' =>
    rw [hasCRLF, if_neg (by rintro ⟨h, _⟩; exact absurd h (by decide))]

theorem hasCRLF_append :
    ∀ a b : List Char,
      hasCRLF (a ++ b) = true ↔
        hasCRLF a = true ∨ hasCRLF b = true ∨
          (a.getLast? = some '\r' ∧ b.head? = some '\n') := by
  intro a
  induction a with
  | nil => intro b; simp [hasCRLF]
  | cons c a' ih =>
    intro b
    cases a' with
    | nil =>
      cases b with
      | nil => simp [hasCRLF]
      | cons d b' =>
        by_cases hcd : c = '\r' ∧ d = '\n'
        · rw [show ([c] ++ (d :: b') : List Char) = c :: d :: b' from rfl,
            hasCRLF_cons_cons, if_pos hcd]
          simp [hcd.1, hcd.2]
        · rw [show ([c] ++ (d :: b') : List Char) = c :: d :: b' from rfl,
            hasCRLF_cons_cons, if_neg hcd]
          simp only [List.getLast?_singleton, List.head?_cons, Option.some.injEq]
          constructor
          · intro hh
            exact Or.inr (Or.inl hh)
          · rintro (h1 | h1 | h1)
            · exact absurd h1 (by simp [hasCRLF])
            · exact h1
            · exact absurd ⟨h1.1, h1.2⟩ hcd
    | cons c2 a'' =>
      by_cases hcd : c = '\r' ∧ c2 = '\n'
      · rw [List.cons_append, List.cons_append, hasCRLF_cons_cons, if_pos hcd,
          show hasCRLF (c :: c2 :: a'') = true from by
            rw [hasCRLF_cons_cons, if_pos hcd]]
        simp
      · rw [List.cons_append, List.cons_append, hasCRLF_cons_cons, if_neg hcd,
          ← List.cons_append, ih b,
          show hasCRLF (c :: c2 :: a'') = hasCRLF (c2 :: a'') from by
            rw [hasCRLF_cons_cons, if_neg hcd],
          List.getLast?_cons_cons]

/-!
The `JoinNoCRLF` invariant and splice support lemmas.
-/

theorem joinNoCRLF_iff :
    ∀ L : List (List Char), JoinNoCRLF L ↔ hasCRLF (List.intercalate lf L) = false := by
  intro L
  induction L with
  | nil => simp [JoinNoCRLF, List.intercalate, List.intersperse, hasCRLF]
  | cons l ls ih =>
    cases ls with
    | nil =>
      rw [intercalate_single]
      show (hasCRLF l = false) ↔ (hasCRLF l = false)
      exact Iff.rfl
    | cons m ms =>
      rw [intercalate_cons_cons,
        show l ++ lf ++ List.intercalate lf (m :: ms) =
          l ++ '\n' :: List.intercalate lf (m :: ms) from by simp [lf]]
      have hchar := hasCRLF_append l ('\n' :: List.intercalate lf (m :: ms))
      rw [hasCRLF_newline_cons] at hchar
      show (hasCRLF l = false ∧ l.getLast? ≠ some '\r' ∧ JoinNoCRLF (m :: ms)) ↔ _
      rw [ih]
      constructor
      · rintro ⟨h1, h2, h3⟩
        cases hres : hasCRLF (l ++ '\n' :: List.intercalate lf (m :: ms)) with
        | false => rfl
        | true =>
          rcases hchar.mp hres with hx | hx | hx
          · rw [h1] at hx; exact absurd hx (by decide)
          · rw [h3] at hx; exact absurd hx (by decide)
          · exact absurd hx.1 h2
      · intro hres
        refine ⟨?_, ?_, ?_⟩
        · cases hl : hasCRLF l with
          | false => rfl
          | true =>
            have := hchar.mpr (Or.inl hl)
            rw [hres] at this
            exact absurd this (by decide)
        · intro hlast
          have := hchar.mpr (Or.inr (Or.inr ⟨hlast, by simp⟩))
          rw [hres] at this
          exact absurd this (by decide)
        · cases hX : hasCRLF (List.intercalate lf (m :: ms)) with
          | false => rfl
          | true =>
            have := hchar.mpr (Or.inr (Or.inl hX))
            rw [hres] at this
            exact absurd this (by decide)

theorem joinNoCRLF_set :
    ∀ (L : List (List Char)) (i : Nat) (x : List Char), JoinNoCRLF L →
      hasCRLF x = false →
      (x.getLast? = some '\r' → (L.getD i []).getLast? = some '\r') →
      JoinNoCRLF (L.set i x) := by
  intro L
  induction L with
  | nil =>
    intro i x _ _ _
    exact trivial
  | cons l ls ih =>
    intro i x hj hx hlast
    cases i with
    | zero =>
      cases ls with
      | nil =>
        show JoinNoCRLF [x]
        exact hx
      | cons m ms =>
        obtain ⟨h1, h2, h3⟩ := hj
        refine ⟨hx, ?_, h3⟩
        intro hx2
        exact h2 (hlast hx2)
    | succ i' =>
      cases ls with
      | nil =>
        show JoinNoCRLF [l]
        exact hj
      | cons m ms =>
        obtain ⟨h1, h2, h3⟩ := hj
        have hrec := ih i' x h3 hx (fun hx2 => hlast hx2)
        show JoinNoCRLF (l :: (m :: ms).set i' x)
        cases hset : (m :: ms).set i' x with
        | nil => exact absurd (congrArg List.length hset) (by simp)
        | cons y ys =>
          rw [hset] at hrec
          exact ⟨h1, h2, hrec⟩

theorem getLast?_drop_of_ne_nil (l : List Char) (k : Nat) (h : l.drop k ≠ []) :
    (l.drop k).getLast? = l.getLast? := by
  conv_rhs => rw [← List.take_append_drop k l]
  rw [List.getLast?_append]
  obtain ⟨x, hx⟩ := Option.isSome_iff_exists.mp (List.getLast?_isSome.mpr h)
  rw [hx]
  rfl

theorem getLast?_mem (l : List Char) (a : Char) (h : l.getLast? = some a) : a ∈ l := by
  obtain ⟨ys, rfl⟩ := List.getLast?_eq_some_iff.mp h
  simp

theorem spliceLine_getLast_cr (line rep : List Char) (off : Nat) (hr : '\r' ∉ rep)
    (h : (spliceLine line rep off).getLast? = some '\r') :
    line.getLast? = some '\r' := by
  unfold spliceLine at h
  by_cases hd : line.drop (off + rep.length) = []
  · rw [hd, List.append_nil] at h
    by_cases hrep : rep = []
    · subst hrep
      rw [List.append_nil] at h
      have hlen : line.length ≤ off := by
        simpa using List.drop_eq_nil_iff.mp (by simpa using hd)
      rw [List.take_of_length_le hlen] at h
      exact h
    · rw [List.getLast?_append] at h
      obtain ⟨x, hx⟩ := Option.isSome_iff_exists.mp (List.getLast?_isSome.mpr hrep)
      rw [hx, show ((some x).or ((line.take off).getLast?)) = some x from rfl] at h
      have hxr : x = '\r' := Option.some.inj h
      subst hxr
      exact absurd (getLast?_mem rep _ hx) hr
  · rw [List.getLast?_append] at h
    obtain ⟨x, hx⟩ := Option.isSome_iff_exists.mp (List.getLast?_isSome.mpr hd)
    rw [hx,
      show ((some x).or ((line.take off ++ rep).getLast?)) = some x from rfl] at h
    have hxr : x = '\r' := Option.some.inj h
    subst hxr
    rw [← getLast?_drop_of_ne_nil line (off + rep.length) hd]
    exact hx

theorem getD_set_self (L : List (List Char)) (i : Nat) (x : List Char)
    (h : i < L.length) : (L.set i x).getD i [] = x := by
  rw [List.getD_eq_getElem?_getD, List.getElem?_set_self', List.getElem?_eq_getElem h]
  simp

theorem getD_mem_of_lt (L : List (List Char)) (i : Nat) (h : i < L.length) :
    L.getD i [] ∈ L := by
  rw [List.getD_eq_getElem?_getD, List.getElem?_eq_getElem h]
  exact List.getElem_mem h

theorem spliceLine_no_newline (line rep : List Char) (off : Nat)
    (hline : '\n' ∉ line) (hrep : '\n' ∉ rep) :
    '\n' ∉ spliceLine line rep off := by
  intro hmem
  unfold spliceLine at hmem
  rcases List.mem_append.mp hmem with h1 | h1
  · rcases List.mem_append.mp h1 with h2 | h2
    · exact hline (List.take_subset off line h2)
    · exact hrep h2
  · exact hline (List.drop_subset _ line h1)

theorem spliceLine_no_cr (line rep : List Char) (off : Nat)
    (hline : '\r' ∉ line) (hrep : '\r' ∉ rep) :
    '\r' ∉ spliceLine line rep off := by
  intro hmem
  unfold spliceLine at hmem
  rcases List.mem_append.mp hmem with h1 | h1
  · rcases List.mem_append.mp h1 with h2 | h2
    · exact hline (List.take_subset off line h2)
    · exact hrep h2
  · exact hline (List.drop_subset _ line h1)

theorem spliceLine_idem (line rep : List Char) (off : Nat) (hoff : off ≤ line.length) :
    spliceLine (spliceLine line rep off) rep off = spliceLine line rep off := by
  have htl : (line.take off).length = off := by
    rw [List.length_take]
    omega
  have h1 : (spliceLine line rep off).take off = line.take off := by
    unfold spliceLine
    rw [List.append_assoc, List.take_left' htl]
  have h2 : (spliceLine line rep off).drop (off + rep.length) =
      line.drop (off + rep.length) := by
    unfold spliceLine
    exact List.drop_left' (by rw [List.length_append, htl])
  show (spliceLine line rep off).take off ++ rep ++
      (spliceLine line rep off).drop (off + rep.length) = _
  rw [h1, h2]
  rfl

/-!
Evaluation of single-line range replace, and the round trip back to lines.
-/

theorem rangeReplaceCore_single_line_eval (t content : List Char) (n off : Nat)
    (h1 : 1 ≤ n) (h2 : n ≤ (splitNL (normCRLF t)).length) :
    rangeReplaceCore t (n : Int) (n : Int) content (off : Int) =
      Except.ok (List.intercalate (detectLineEnding t)
        ((splitNL (normCRLF t)).set (n - 1)
          (spliceLine ((splitNL (normCRLF t)).getD (n - 1) []) (normCRLF content) off))) := by
  have hv : ¬((n : Int) < 1 ∨ (n : Int) > ((splitNL (normCRLF t)).length : Int) ∨
      (n : Int) > (n : Int)) := by
    push_neg
    refine ⟨by exact_mod_cast h1, by exact_mod_cast h2, le_refl _⟩
  unfold rangeReplaceCore
  rw [if_neg hv]
  congr 1
  have e1 : ((n : Int) - 1).toNat = n - 1 := by omega
  have e2 : ((off : Nat) : Int).toNat = off := by omega
  have e3 : ((off : Int) + ((normCRLF content).length : Int)).toNat =
      off + (normCRLF content).length := by omega
  simp only [rangeReplaceBuild, if_pos rfl, e1, e2, e3]
  rfl

theorem roundtrip_set_splice (t content : List Char) (n off : Nat)
    (h1 : 1 ≤ n) (h2 : n ≤ (splitNL (normCRLF t)).length)
    (hn : '\n' ∉ normCRLF content) (hr : '\r' ∉ normCRLF content) :
    splitNL (normCRLF (List.intercalate (detectLineEnding t)
      ((splitNL (normCRLF t)).set (n - 1)
        (spliceLine ((splitNL (normCRLF t)).getD (n - 1) []) (normCRLF content) off)))) =
    (splitNL (normCRLF t)).set (n - 1)
      (spliceLine ((splitNL (normCRLF t)).getD (n - 1) []) (normCRLF content) off) := by
  set L := splitNL (normCRLF t) with hL
  set line := L.getD (n - 1) [] with hlinedef
  set rep := normCRLF content with hrepdef
  set splice := spliceLine line rep off with hsplicedef
  set L' := L.set (n - 1) splice with hLdef
  have hiL : n - 1 < L.length := by omega
  have hlineL : line ∈ L := getD_mem_of_lt L (n - 1) hiL
  have hlinenl : '\n' ∉ line := mem_splitNL_no_newline _ line (by rw [hL] at hlineL; exact hlineL)
  have hcleanL : ∀ l ∈ L, '\n' ∉ l := by
    intro l hl
    rw [hL] at hl
    exact mem_splitNL_no_newline _ l hl
  have hsplice_nl : '\n' ∉ splice := by
    rw [hsplicedef]
    exact spliceLine_no_newline line rep off hlinenl hn
  have hcleanL' : ∀ l ∈ L', '\n' ∉ l := by
    intro l hl
    rw [hLdef] at hl
    rcases List.mem_or_eq_of_mem_set hl with h | h
    · exact hcleanL l h
    · subst h
      exact hsplice_nl
  have hL'ne : L' ≠ [] := by
    apply List.ne_nil_of_length_pos
    rw [hLdef, List.length_set]
    omega
  cases hc : hasCRLF t with
  | true =>
    rw [show detectLineEnding t = crlf from by rw [detectLineEnding, hc]; rfl]
    rw [normCRLF_intercalate_crlf L' hcleanL', splitNL_intercalate L' hL'ne hcleanL']
  | false =>
    rw [show detectLineEnding t = lf from by rw [detectLineEnding, hc]; rfl]
    have hnt : normCRLF t = t := normCRLF_of_no_crlf t hc
    have hjoin : JoinNoCRLF L := by
      rw [joinNoCRLF_iff, hL, intercalate_lf_splitNL, hnt]
      exact hc
    have hJset : JoinNoCRLF L' := by
      rw [hLdef]
      exact joinNoCRLF_set L (n - 1) splice hjoin
        (hasCRLF_eq_false_of_no_newline splice hsplice_nl)
        (fun hlast => spliceLine_getLast_cr line rep off hr hlast)
    have hfalse : hasCRLF (List.intercalate lf L') = false := (joinNoCRLF_iff L').mp hJset
    rw [normCRLF_of_no_crlf _ hfalse, splitNL_intercalate L' hL'ne hcleanL']

/-!
Claim C2 and its witness.
-/

/-- Claim C2: for every text, in-bounds single line `n`, offset and
replacement, range replace succeeds and the replaced line becomes the
original line's first `offset` characters, then the replacement, then the
original line's characters from `offset + len(replacement)` on (a positional
overwrite); the trailing part is exactly the original tail, so a short
replacement does not shift it left; and (for replacements that stay a single
clean line) re-splitting the result yields exactly the original lines with
line `n` so spliced. -/
theorem range_replace_single_line_splice (text content : List Char) (n off : Nat)
    (h1 : 1 ≤ n) (h2 : n ≤ (splitNL (normCRLF text)).length) :
    ∃ r, rangeReplaceCore text (n : Int) (n : Int) content (off : Int) = Except.ok r ∧
      r = List.intercalate (detectLineEnding text)
        ((splitNL (normCRLF text)).set (n - 1)
          (spliceLine ((splitNL (normCRLF text)).getD (n - 1) []) (normCRLF content) off)) ∧
      spliceLine ((splitNL (normCRLF text)).getD (n - 1) []) (normCRLF content) off =
        ((splitNL (normCRLF text)).getD (n - 1) []).take off ++ normCRLF content ++
          ((splitNL (normCRLF text)).getD (n - 1) []).drop (off + (normCRLF content).length) ∧
      (spliceLine ((splitNL (normCRLF text)).getD (n - 1) []) (normCRLF content) off).drop
          (min off ((splitNL (normCRLF text)).getD (n - 1) []).length +
            (normCRLF content).length) =
        ((splitNL (normCRLF text)).getD (n - 1) []).drop (off + (normCRLF content).length) ∧
      ('\n' ∉ normCRLF content → '\r' ∉ normCRLF content →
        splitNL (normCRLF r) =
          (splitNL (normCRLF text)).set (n - 1)
            (spliceLine ((splitNL (normCRLF text)).getD (n - 1) []) (normCRLF content) off)) := by
  refine ⟨_, rangeReplaceCore_single_line_eval text content n off h1 h2, rfl, rfl, ?_, ?_⟩
  · unfold spliceLine
    exact List.drop_left' (by rw [List.length_append, List.length_take])
  · intro hn hr
    exact roundtrip_set_splice text content n off h1 h2 hn hr

theorem range_replace_single_line_splice_witness :
    (1 ≤ 1 ∧ 1 ≤ (splitNL (normCRLF ['a', 'b', '\n', 'c'])).length) ∧
    (∃ r, rangeReplaceCore ['a', 'b', '\n', 'c'] (1 : Int) (1 : Int) ['X'] ((1 : Nat) : Int) =
        Except.ok r ∧
      r = List.intercalate (detectLineEnding ['a', 'b', '\n', 'c'])
        ((splitNL (normCRLF ['a', 'b', '\n', 'c'])).set 0
          (spliceLine ((splitNL (normCRLF ['a', 'b', '\n', 'c'])).getD 0 [])
            (normCRLF ['X']) 1)) ∧
      spliceLine ((splitNL (normCRLF ['a', 'b', '\n', 'c'])).getD 0 []) (normCRLF ['X']) 1 =
        ((splitNL (normCRLF ['a', 'b', '\n', 'c'])).getD 0 []).take 1 ++ normCRLF ['X'] ++
          ((splitNL (normCRLF ['a', 'b', '\n', 'c'])).getD 0 []).drop
            (1 + (normCRLF ['X']).length) ∧
      (spliceLine ((splitNL (normCRLF ['a', 'b', '\n', 'c'])).getD 0 [])
            (normCRLF ['X']) 1).drop
          (min 1 ((splitNL (normCRLF ['a', 'b', '\n', 'c'])).getD 0 []).length +
            (normCRLF ['X']).length) =
        ((splitNL (normCRLF ['a', 'b', '\n', 'c'])).getD 0 []).drop
          (1 + (normCRLF ['X']).length) ∧
      ('\n' ∉ normCRLF ['X'] → '\r' ∉ normCRLF ['X'] →
        splitNL (normCRLF r) =
          (splitNL (normCRLF ['a', 'b', '\n', 'c'])).set 0
            (spliceLine ((splitNL (normCRLF ['a', 'b', '\n', 'c'])).getD 0 [])
              (normCRLF ['X']) 1))) :=
  ⟨⟨le_refl 1, by decide⟩,
    range_replace_single_line_splice ['a', 'b', '\n', 'c'] ['X'] 1 1 (le_refl 1) (by decide)⟩

/-!
Claim C8: counterexample, amended statement, and witness.
-/

/-- Claim C8 counterexample: re-applying the same single-line replacement is
not idempotent in general.  A replacement containing a newline grows the text
on each application; a replacement ending in a lone carriage return flips the
detected line ending and grows the text; an offset beyond the line length
appends the replacement again on each application. -/
theorem range_replace_not_idempotent :
    (rangeReplaceCore ['a'] 1 1 ['x', '\n', 'y'] 0 = Except.ok ['x', '\n', 'y'] ∧
      rangeReplaceCore ['x', '\n', 'y'] 1 1 ['x', '\n', 'y'] 0 =
        Except.ok ['x', '\n', 'y', '\n', 'y'] ∧
      (['x', '\n', 'y', '\n', 'y'] : List Char) ≠ ['x', '\n', 'y']) ∧
    (rangeReplaceCore ['a', '\n', 'b'] 1 1 ['x', '\r'] 0 =
        Except.ok ['x', '\r', '\n', 'b'] ∧
      rangeReplaceCore ['x', '\r', '\n', 'b'] 1 1 ['x', '\r'] 0 =
        Except.ok ['x', '\r', '\r', '\n', 'b'] ∧
      (['x', '\r', '\r', '\n', 'b'] : List Char) ≠ ['x', '\r', '\n', 'b']) ∧
    (rangeReplaceCore ['a'] 1 1 ['x', 'y', 'z'] 5 = Except.ok ['a', 'x', 'y', 'z'] ∧
      rangeReplaceCore ['a', 'x', 'y', 'z'] 1 1 ['x', 'y', 'z'] 5 =
        Except.ok ['a', 'x', 'y', 'z', 'x', 'y', 'z'] ∧
      (['a', 'x', 'y', 'z', 'x', 'y', 'z'] : List Char) ≠ ['a', 'x', 'y', 'z']) :=
  ⟨⟨rfl, rfl, by decide⟩, ⟨rfl, rfl, by decide⟩, ⟨rfl, rfl, by decide⟩⟩

/-- Claim C8 amended: single-line range replace is idempotent under
re-application for every text and in-bounds line `n`, provided the
(normalized) replacement contains no newline and no carriage return and the
offset does not exceed the length of line `n`. -/
theorem range_replace_idempotent_amended (t content : List Char) (n off : Nat)
    (h1 : 1 ≤ n) (h2 : n ≤ (splitNL (normCRLF t)).length)
    (hn : '\n' ∉ normCRLF content) (hr : '\r' ∉ normCRLF content)
    (hoff : off ≤ ((splitNL (normCRLF t)).getD (n - 1) []).length) :
    ∃ r, rangeReplaceCore t (n : Int) (n : Int) content (off : Int) = Except.ok r ∧
      rangeReplaceCore r (n : Int) (n : Int) content (off : Int) = Except.ok r := by
  refine ⟨_, rangeReplaceCore_single_line_eval t content n off h1 h2, ?_⟩
  set L := splitNL (normCRLF t) with hL
  set line := L.getD (n - 1) [] with hlinedef
  set rep := normCRLF content with hrepdef
  set splice := spliceLine line rep off with hsplicedef
  set L' := L.set (n - 1) splice with hLpdef
  set r := List.intercalate (detectLineEnding t) L' with hrdef
  have hiL : n - 1 < L.length := by omega
  have hsplit : splitNL (normCRLF r) = L' :=
    roundtrip_set_splice t content n off h1 h2 hn hr
  have hlen : L'.length = L.length := by
    rw [hLpdef]
    exact List.length_set ..
  have h2' : n ≤ (splitNL (normCRLF r)).length := by
    rw [hsplit, hlen]
    exact h2
  rw [rangeReplaceCore_single_line_eval r content n off h1 h2']
  congr 1
  have hgetD : (splitNL (normCRLF r)).getD (n - 1) [] = splice := by
    rw [hsplit, hLpdef]
    exact getD_set_self L (n - 1) splice hiL
  have hidem : spliceLine splice rep off = splice := by
    rw [hsplicedef]
    exact spliceLine_idem line rep off hoff
  have hsetset : (splitNL (normCRLF r)).set (n - 1) splice = L' := by
    rw [hsplit, hLpdef, List.set_set]
  have hdetect : detectLineEnding r = detectLineEnding t := by
    cases hc : hasCRLF t with
    | true =>
      have h2L : 2 ≤ L.length := by
        rw [hL]
        exact two_le_length_splitNL_of_newline _ (newline_mem_normCRLF t hc)
      have h2L' : 2 ≤ L'.length := by omega
      obtain ⟨x, y, zs, hxyz⟩ : ∃ x y zs, L' = x :: y :: zs := by
        cases hLL : L' with
        | nil => rw [hLL] at h2L'; simp at h2L'
        | cons x rest =>
          cases rest with
          | nil => rw [hLL] at h2L'; simp at h2L'
          | cons y zs => exact ⟨x, y, zs, rfl⟩
      have hcr : hasCRLF r = true := by
        rw [hrdef, show detectLineEnding t = crlf from by rw [detectLineEnding, hc]; rfl,
          hxyz, intercalate_cons_cons, List.append_assoc]
        refine (hasCRLF_append x _).mpr (Or.inr (Or.inl ?_))
        rw [show (crlf ++ List.intercalate crlf (y :: zs) : List Char) =
            '\r' :: '\n' :: List.intercalate crlf (y :: zs) from rfl,
          hasCRLF_cons_cons, if_pos ⟨rfl, rfl⟩]
      rw [detectLineEnding, detectLineEnding, hc, hcr]
    | false =>
      have hnt : normCRLF t = t := normCRLF_of_no_crlf t hc
      have hjoin : JoinNoCRLF L := by
        rw [joinNoCRLF_iff, hL, intercalate_lf_splitNL, hnt]
        exact hc
      have hlinenl : '\n' ∉ line :=
        mem_splitNL_no_newline (normCRLF t) line (getD_mem_of_lt L (n - 1) hiL)
      have hsplice_nl : '\n' ∉ splice := by
        rw [hsplicedef]
        exact spliceLine_no_newline line rep off hlinenl hn
      have hJset : JoinNoCRLF L' := joinNoCRLF_set L (n - 1) splice hjoin
        (hasCRLF_eq_false_of_no_newline splice hsplice_nl)
        (fun hlast => spliceLine_getLast_cr line rep off hr hlast)
      have hfalse : hasCRLF r = false := by
        rw [hrdef, show detectLineEnding t = lf from by rw [detectLineEnding, hc]; rfl]
        exact (joinNoCRLF_iff L').mp hJset
      rw [detectLineEnding, detectLineEnding, hc, hfalse]
  rw [hgetD, hidem, hsetset, hdetect]

theorem range_replace_idempotent_amended_witness :
    (1 ≤ 1 ∧ 1 ≤ (splitNL (normCRLF ['a', 'b', '\n', 'c'])).length ∧
      '\n' ∉ normCRLF ['X'] ∧ '\r' ∉ normCRLF ['X'] ∧
      1 ≤ ((splitNL (normCRLF ['a', 'b', '\n', 'c'])).getD 0 []).length) ∧
    (∃ r, rangeReplaceCore ['a', 'b', '\n', 'c'] ((1 : Nat) : Int) ((1 : Nat) : Int) ['X']
        ((1 : Nat) : Int) = Except.ok r ∧
      rangeReplaceCore r ((1 : Nat) : Int) ((1 : Nat) : Int) ['X'] ((1 : Nat) : Int) =
        Except.ok r) :=
  ⟨⟨le_refl 1, by decide, by decide, by decide, by decide⟩,
    range_replace_idempotent_amended ['a', 'b', '\n', 'c'] ['X'] 1 1 (le_refl 1)
      (by decide) (by decide) (by decide) (by decide)⟩

/-!
Claim C6: counterexample, amended statement, and witness.
-/

theorem CRLFjoined_of_clean_join (L : List (List Char)) (hne : L ≠ [])
    (hclean : ∀ l ∈ L, '\n' ∉ l ∧ '\r' ∉ l) :
    CRLFjoined (List.intercalate crlf L) := by
  have h1 : splitNL (normCRLF (List.intercalate crlf L)) = L := by
    rw [normCRLF_intercalate_crlf L (fun l hl => (hclean l hl).1),
      splitNL_intercalate L hne (fun l hl => (hclean l hl).1)]
  exact ⟨by rw [h1]; exact hclean, by rw [h1]⟩

theorem CRLFjoined_singleton (s : List Char) (hn : '\n' ∉ s) (hr : '\r' ∉ s) :
    CRLFjoined s := by
  have hnc : normCRLF s = s :=
    normCRLF_of_no_crlf s (hasCRLF_eq_false_of_no_newline s hn)
  have hs : splitNL (normCRLF s) = [s] := by
    rw [hnc]
    exact splitNL_of_no_newline s hn
  refine ⟨?_, ?_⟩
  · rw [hs]
    intro l hl
    rw [List.mem_singleton] at hl
    subst hl
    exact ⟨hn, hr⟩
  · rw [hs, intercalate_single]

theorem hasCRLF_intercalate_crlf_two (x y : List Char) (zs : List (List Char)) :
    hasCRLF (List.intercalate crlf (x :: y :: zs)) = true := by
  rw [intercalate_cons_cons, List.append_assoc]
  refine (hasCRLF_append x _).mpr (Or.inr (Or.inl ?_))
  rw [show (crlf ++ List.intercalate crlf (y :: zs) : List Char) =
      '\r' :: '\n' :: List.intercalate crlf (y :: zs) from rfl,
    hasCRLF_cons_cons, if_pos ⟨rfl, rfl⟩]

/-- Claim C6 counterexample: an LF-only input does not always yield an
LF-only output, and a CRLF-joined input does not always yield a CRLF-joined
output — a replacement containing a lone carriage return survives
normalization into an LF file, and a replacement containing a newline spliced
into a single line of a CRLF file produces a mixed-ending result. -/
theorem range_replace_line_ending_not_preserved :
    ('\r' ∉ (['a', '\n', 'b'] : List Char) ∧
      rangeReplaceCore ['a', '\n', 'b'] 1 1 ['x', '\r'] 0 =
        Except.ok ['x', '\r', '\n', 'b'] ∧
      '\r' ∈ (['x', '\r', '\n', 'b'] : List Char)) ∧
    (CRLFjoined ['a', '\r', '\n', 'b'] ∧
      rangeReplaceCore ['a', '\r', '\n', 'b'] 1 1 ['x', '\n', 'y'] 0 =
        Except.ok ['x', '\n', 'y', '\r', '\n', 'b'] ∧
      ¬CRLFjoined ['x', '\n', 'y', '\r', '\n', 'b']) :=
  ⟨⟨by decide, rfl, by decide⟩, ⟨by decide, rfl, by decide⟩⟩

/-- Claim C6 amended: range replace detects CRLF exactly when the current
text contains a CRLF pair, splices on the LF-normalized lines, and rejoins
with the detected style; consequently an input without carriage returns
yields an output without carriage returns provided the replacement has none,
and a properly CRLF-joined input yields a properly CRLF-joined output
provided the replacement has no carriage return and, for a single-line
splice, no newline. -/
theorem range_replace_line_ending_amended (t content : List Char) (sl el off : Int)
    (hv : ¬(sl < 1 ∨ el > ((splitNL (normCRLF t)).length : Int) ∨ sl > el)) :
    ∃ r, rangeReplaceCore t sl el content off = Except.ok r ∧
      ('\r' ∉ t → '\r' ∉ content → '\r' ∉ r) ∧
      (CRLFjoined t → '\r' ∉ content → (sl = el → '\n' ∉ content) → CRLFjoined r) := by
  have hcore : rangeReplaceCore t sl el content off =
      Except.ok (rangeReplaceBuild t sl el content off) := by
    unfold rangeReplaceCore
    rw [if_neg hv]
  push_neg at hv
  obtain ⟨hv1, hv2, hv3⟩ := hv
  refine ⟨_, hcore, ?_, ?_⟩
  all_goals
    set L := splitNL (normCRLF t) with hL
    set si := (sl - 1).toNat with hsidef
    set ei := (el - 1).toNat with heidef
    have hsi : si < L.length := by omega
  -- LF preservation
  · intro hct hcc
    have hasF : hasCRLF t = false := hasCRLF_eq_false_of_no_cr t hct
    have heol : detectLineEnding t = lf := by
      rw [detectLineEnding, hasF]
      rfl
    have hnt : normCRLF t = t := normCRLF_of_no_crlf t hasF
    have hadapt : '\r' ∉ normCRLF content := by
      intro hm
      rcases mem_of_mem_normCRLF content '\r' hm with h | h
      · exact hcc h
      · exact absurd h (by decide)
    have hmemL : ∀ l ∈ L, '\r' ∉ l := by
      intro l hl hm
      have := mem_of_mem_splitNL (normCRLF t) l hl '\r' hm
      rw [hnt] at this
      exact hct this
    intro hmem
    by_cases hsl : sl = el
    · rw [show rangeReplaceBuild t sl el content off =
          List.intercalate (detectLineEnding t)
            (L.set si ((L.getD si []).take off.toNat ++ normCRLF content ++
              (L.getD si []).drop (off + ((normCRLF content).length : Int)).toNat)) from by
          simp only [rangeReplaceBuild, if_pos hsl], heol] at hmem
      rcases mem_of_mem_intercalate lf _ '\r' hmem with ⟨l, hl, hcl⟩ | hlf
      · rcases List.mem_or_eq_of_mem_set hl with h | h
        · exact hmemL l h hcl
        · subst h
          rcases List.mem_append.mp hcl with h1 | h1
          · rcases List.mem_append.mp h1 with h2 | h2
            · exact hmemL _ (getD_mem_of_lt L si hsi) (List.take_subset _ _ h2)
            · exact hadapt h2
          · exact hmemL _ (getD_mem_of_lt L si hsi) (List.drop_subset _ _ h1)
      · exact absurd hlf (by decide)
    · rw [show rangeReplaceBuild t sl el content off =
          List.intercalate (detectLineEnding t)
            (L.take si ++ splitNL (normCRLF content) ++ L.drop (ei + 1)) from by
          simp only [rangeReplaceBuild, if_neg hsl], heol] at hmem
      rcases mem_of_mem_intercalate lf _ '\r' hmem with ⟨l, hl, hcl⟩ | hlf
      · rcases List.mem_append.mp hl with h1 | h1
        · rcases List.mem_append.mp h1 with h2 | h2
          · exact hmemL l (List.take_subset _ _ h2) hcl
          · exact hadapt (mem_of_mem_splitNL (normCRLF content) l h2 '\r' hcl)
        · exact hmemL l (List.drop_subset _ _ h1) hcl
      · exact absurd hlf (by decide)
  -- CRLF preservation
  · intro hcj hcc hnlc
    obtain ⟨hclean, heq⟩ := hcj
    have hadapted_eq : normCRLF content = content :=
      normCRLF_of_no_crlf content (hasCRLF_eq_false_of_no_cr content hcc)
    by_cases hsl : sl = el
    · have hnc : '\n' ∉ content := hnlc hsl
      have hline := hclean (L.getD si []) (getD_mem_of_lt L si hsi)
      have hsplice_clean :
          '\n' ∉ (L.getD si []).take off.toNat ++ normCRLF content ++
              (L.getD si []).drop (off + ((normCRLF content).length : Int)).toNat ∧
          '\r' ∉ (L.getD si []).take off.toNat ++ normCRLF content ++
              (L.getD si []).drop (off + ((normCRLF content).length : Int)).toNat := by
        rw [hadapted_eq]
        constructor <;> intro hm <;> rcases List.mem_append.mp hm with h1 | h1
        · rcases List.mem_append.mp h1 with h2 | h2
          · exact hline.1 (List.take_subset _ _ h2)
          · exact hnc h2
        · exact hline.1 (List.drop_subset _ _ h1)
        · rcases List.mem_append.mp h1 with h2 | h2
          · exact hline.2 (List.take_subset _ _ h2)
          · exact hcc h2
        · exact hline.2 (List.drop_subset _ _ h1)
      rw [show rangeReplaceBuild t sl el content off =
          List.intercalate (detectLineEnding t)
            (L.set si ((L.getD si []).take off.toNat ++ normCRLF content ++
              (L.getD si []).drop (off + ((normCRLF content).length : Int)).toNat)) from by
        simp only [rangeReplaceBuild, if_pos hsl]]
      cases hc : hasCRLF t with
      | true =>
        rw [show detectLineEnding t = crlf from by rw [detectLineEnding, hc]; rfl]
        apply CRLFjoined_of_clean_join
        · apply List.ne_nil_of_length_pos
          rw [List.length_set]
          omega
        · intro l hl
          rcases List.mem_or_eq_of_mem_set hl with h | h
          · exact hclean l h
          · subst h
            exact hsplice_clean
      | false =>
        have hL1 : L.length = 1 := by
          rcases Nat.lt_or_ge L.length 2 with h2 | h2
          · omega
          · obtain ⟨x, y, zs, hxyz⟩ : ∃ x y zs, L = x :: y :: zs := by
              cases hLL : L with
              | nil => rw [hLL] at h2; simp at h2
              | cons x rest =>
                cases rest with
                | nil => rw [hLL] at h2; simp at h2
                | cons y zs => exact ⟨x, y, zs, rfl⟩
            have : hasCRLF t = true := by
              rw [heq, show splitNL (normCRLF t) = L from hL.symm, hxyz]
              exact hasCRLF_intercalate_crlf_two x y zs
            rw [this] at hc
            exact absurd hc (by decide)
        have hsi0 : si = 0 := by omega
        obtain ⟨l0, hL0⟩ : ∃ l0, L = [l0] := by
          cases hLL : L with
          | nil => rw [hLL] at hL1; simp at hL1
          | cons a rest =>
            cases rest with
            | nil => exact ⟨a, rfl⟩
            | cons b bs => rw [hLL] at hL1; simp at hL1
        rw [show detectLineEnding t = lf from by rw [detectLineEnding, hc]; rfl]
        rw [hsi0] at hsplice_clean ⊢
        rw [hL0] at hsplice_clean ⊢
        rw [show ([l0].set 0 ((([l0] : List (List Char)).getD 0 []).take off.toNat ++
            normCRLF content ++
            (([l0] : List (List Char)).getD 0 []).drop
              (off + ((normCRLF content).length : Int)).toNat) : List (List Char)) =
          [(([l0] : List (List Char)).getD 0 []).take off.toNat ++ normCRLF content ++
            (([l0] : List (List Char)).getD 0 []).drop
              (off + ((normCRLF content).length : Int)).toNat] from rfl,
          intercalate_single]
        exact CRLFjoined_singleton _ hsplice_clean.1 hsplice_clean.2
    · cases hc : hasCRLF t with
      | false =>
        have hL1 : L.length = 1 := by
          rcases Nat.lt_or_ge L.length 2 with h2 | h2
          · omega
          · obtain ⟨x, y, zs, hxyz⟩ : ∃ x y zs, L = x :: y :: zs := by
              cases hLL : L with
              | nil => rw [hLL] at h2; simp at h2
              | cons x rest =>
                cases rest with
                | nil => rw [hLL] at h2; simp at h2
                | cons y zs => exact ⟨x, y, zs, rfl⟩
            have : hasCRLF t = true := by
              rw [heq, show splitNL (normCRLF t) = L from hL.symm, hxyz]
              exact hasCRLF_intercalate_crlf_two x y zs
            rw [this] at hc
            exact absurd hc (by decide)
        exact absurd (by omega : sl = el) hsl
      | true =>
        rw [show rangeReplaceBuild t sl el content off =
            List.intercalate (detectLineEnding t)
              (L.take si ++ splitNL (normCRLF content) ++ L.drop (ei + 1)) from by
          simp only [rangeReplaceBuild, if_neg hsl],
          show detectLineEnding t = crlf from by rw [detectLineEnding, hc]; rfl]
        apply CRLFjoined_of_clean_join
        · apply List.ne_nil_of_length_pos
          rw [List.length_append, List.length_append]
          have := List.length_pos.mpr (splitNL_ne_nil (normCRLF content))
          omega
        · intro l hl
          rcases List.mem_append.mp hl with h1 | h1
          · rcases List.mem_append.mp h1 with h2 | h2
            · exact hclean l (List.take_subset _ _ h2)
            · refine ⟨mem_splitNL_no_newline (normCRLF content) l h2, ?_⟩
              intro hm
              rcases mem_of_mem_normCRLF content '\r'
                  (mem_of_mem_splitNL (normCRLF content) l h2 '\r' hm) with h | h
              · exact hcc h
              · exact absurd h (by decide)
          · exact hclean l (List.drop_subset _ _ h1)

theorem range_replace_line_ending_amended_witness :
    (¬((1 : Int) < 1 ∨
        (1 : Int) > ((splitNL (normCRLF ['a', '\r', '\n', 'b'])).length : Int) ∨
        (1 : Int) > 1)) ∧
    (∃ r, rangeReplaceCore ['a', '\r', '\n', 'b'] 1 1 ['X'] 0 = Except.ok r ∧
      ('\r' ∉ (['a', '\r', '\n', 'b'] : List Char) → '\r' ∉ (['X'] : List Char) →
        '\r' ∉ r) ∧
      (CRLFjoined ['a', '\r', '\n', 'b'] → '\r' ∉ (['X'] : List Char) →
        ((1 : Int) = 1 → '\n' ∉ (['X'] : List Char)) → CRLFjoined r)) :=
  ⟨by decide, range_replace_line_ending_amended ['a', '\r', '\n', 'b'] ['X'] 1 1 0 (by decide)⟩

/-!
Lemmas about literal matching, substitution and split-and-join.
-/

theorem occursIn_nil_iff (pat : List Char) : OccursIn pat [] ↔ pat = [] := by
  constructor
  · rintro ⟨a, b, h⟩
    rcases List.append_eq_nil.mp h.symm with ⟨h1, _⟩
    exact (List.append_eq_nil.mp h1).2
  · rintro rfl
    exact ⟨[], [], rfl⟩

theorem occursIn_of_startsWith (pat : List Char) (s : List Char)
    (h : startsWithChars pat s = true) : OccursIn pat s := by
  obtain ⟨t, ht⟩ := (startsWithChars_iff pat s).mp h
  exact ⟨[], t, by rw [ht]; rfl⟩

theorem occursIn_cons_iff (pat : List Char) (c : Char) (rest : List Char)
    (h : ¬(startsWithChars pat (c :: rest) = true)) :
    OccursIn pat (c :: rest) ↔ OccursIn pat rest := by
  constructor
  · rintro ⟨a, b, hab⟩
    cases a with
    | nil =>
      exact absurd ((startsWithChars_iff pat (c :: rest)).mpr ⟨b, by simpa using hab⟩) h
    | cons a0 a' =>
      rw [List.cons_append, List.cons_append, List.cons_eq_cons] at hab
      exact ⟨a', b, hab.2⟩
  · rintro ⟨a, b, hab⟩
    exact ⟨c :: a, b, by rw [hab]; rfl⟩

theorem matchPositionsFuel_eq_nil_iff (pat : List Char) :
    ∀ (fuel : Nat) (s : List Char) (pos : Nat), s.length < fuel →
      (matchPositionsFuel pat fuel s pos = [] ↔ ¬OccursIn pat s) := by
  intro fuel
  induction fuel with
  | zero =>
    intro s pos h
    exact absurd h (by omega)
  | succ fuel ih =>
    intro s pos h
    cases s with
    | nil =>
      by_cases hp : pat.isEmpty
      · rw [matchPositionsFuel, if_pos hp]
        simp [occursIn_nil_iff, List.isEmpty_iff.mp hp]
      · rw [matchPositionsFuel, if_neg hp]
        simp only [true_iff]
        rw [occursIn_nil_iff]
        exact fun hpat => hp (by rw [hpat]; rfl)
    | cons c rest =>
      have hrest : rest.length < fuel := by
        simp only [List.length_cons] at h
        omega
      cases hsw : startsWithChars pat (c :: rest) with
      | true =>
        have hocc := occursIn_of_startsWith pat (c :: rest) hsw
        by_cases hp : pat.isEmpty
        · rw [matchPositionsFuel, if_pos hsw, if_pos hp]
          simp [hocc]
        · rw [matchPositionsFuel, if_pos hsw, if_neg hp]
          simp [hocc]
      | false =>
        rw [matchPositionsFuel, if_neg (by rw [hsw]; exact Bool.false_ne_true)]
        rw [ih rest (pos + 1) hrest]
        rw [occursIn_cons_iff pat c rest (by rw [hsw]; exact Bool.false_ne_true)]

theorem gsub_of_no_dollar (matched pre post : List Char) :
    ∀ (n : Nat) (rep : List Char), rep.length ≤ n → '$' ∉ rep →
      gsub matched pre post rep = rep := by
  intro n
  induction n with
  | zero =>
    intro rep hlen h
    have hrep : rep = [] := List.eq_nil_of_length_eq_zero (by omega)
    subst hrep
    rfl
  | succ n ih =>
    intro rep hlen h
    cases rep with
    | nil => rfl
    | cons c rest =>
      have hc : c ≠ '$' := fun hcc => h (by simp [hcc])
      have hrest : '$' ∉ rest := fun hm => h (List.mem_cons_of_mem c hm)
      rw [gsub.eq_def]
      split
      · rename_i heq
        exact absurd heq (by simp)
      · rename_i heq
        rw [List.cons_eq_cons] at heq
        exact absurd heq.1 hc
      · rename_i heq
        rw [List.cons_eq_cons] at heq
        exact absurd heq.1 hc
      · rename_i heq
        rw [List.cons_eq_cons] at heq
        exact absurd heq.1 hc
      · rename_i heq
        rw [List.cons_eq_cons] at heq
        obtain ⟨hc1, hc2⟩ := heq
        subst hc1
        subst hc2
        rw [ih rest (by simp at hlen; omega) hrest]

theorem splitOnPatFuel_ne_nil (pat : List Char) (fuel : Nat) (s : List Char) :
    splitOnPatFuel pat fuel s ≠ [] := by
  cases fuel with
  | zero => simp [splitOnPatFuel]
  | succ fuel =>
    cases s with
    | nil => simp [splitOnPatFuel]
    | cons c rest =>
      rw [splitOnPatFuel]
      by_cases hcond : ¬pat.isEmpty = true ∧ startsWithChars pat (c :: rest) = true
      · rw [if_pos hcond]
        simp
      · rw [if_neg hcond]
        cases splitOnPatFuel pat fuel rest <;> simp

theorem jsRepFuel_eq_intercalate (pat rep : List Char) (hpat : ¬pat.isEmpty = true)
    (hrep : '$' ∉ rep) :
    ∀ (fuel : Nat) (s pre : List Char), s.length < fuel →
      jsRepFuel pat rep fuel pre s = List.intercalate rep (splitOnPatFuel pat fuel s) := by
  intro fuel
  induction fuel with
  | zero =>
    intro s pre h
    exact absurd h (by omega)
  | succ fuel ih =>
    intro s pre h
    cases s with
    | nil =>
      rw [jsRepFuel, if_neg hpat, splitOnPatFuel, intercalate_single]
    | cons c rest =>
      have hplen : 0 < pat.length := by
        cases pat with
        | nil => simp at hpat
        | cons p ps => simp
      have hrest : rest.length < fuel := by
        simp only [List.length_cons] at h
        omega
      cases hsw : startsWithChars pat (c :: rest) with
      | true =>
        have hdlen : ((c :: rest).drop pat.length).length < fuel := by
          rw [List.length_drop]
          simp only [List.length_cons]
          omega
        rw [jsRepFuel, if_pos hsw, if_neg hpat,
          gsub_of_no_dollar pat pre ((c :: rest).drop pat.length) rep.length rep
            (le_refl _) hrep,
          ih ((c :: rest).drop pat.length) (pre ++ pat) hdlen,
          splitOnPatFuel, if_pos ⟨hpat, hsw⟩]
        cases hsp : splitOnPatFuel pat fuel ((c :: rest).drop pat.length) with
        | nil => exact absurd hsp (splitOnPatFuel_ne_nil pat fuel _)
        | cons m ms =>
          rw [intercalate_cons_cons]
          simp
      | false =>
        rw [jsRepFuel, if_neg (by rw [hsw]; exact Bool.false_ne_true),
          ih rest (pre ++ [c]) hrest, splitOnPatFuel,
          if_neg (fun hcond => by rw [hsw] at hcond; exact Bool.false_ne_true hcond.2)]
        cases hsp : splitOnPatFuel pat fuel rest with
        | nil => exact absurd hsp (splitOnPatFuel_ne_nil pat fuel rest)
        | cons m ms =>
          rw [intercalate_cons_head]

theorem matchPositionsFuel_length (pat : List Char) (hpat : ¬pat.isEmpty = true) :
    ∀ (fuel : Nat) (s : List Char) (pos : Nat), s.length < fuel →
      (matchPositionsFuel pat fuel s pos).length + 1 =
        (splitOnPatFuel pat fuel s).length := by
  intro fuel
  induction fuel with
  | zero =>
    intro s pos h
    exact absurd h (by omega)
  | succ fuel ih =>
    intro s pos h
    cases s with
    | nil =>
      rw [matchPositionsFuel, if_neg hpat, splitOnPatFuel]
      rfl
    | cons c rest =>
      have hplen : 0 < pat.length := by
        cases pat with
        | nil => simp at hpat
        | cons p ps => simp
      have hrest : rest.length < fuel := by
        simp only [List.length_cons] at h
        omega
      cases hsw : startsWithChars pat (c :: rest) with
      | true =>
        have hdlen : ((c :: rest).drop pat.length).length < fuel := by
          rw [List.length_drop]
          simp only [List.length_cons]
          omega
        rw [matchPositionsFuel, if_pos hsw, if_neg hpat, splitOnPatFuel,
          if_pos ⟨hpat, hsw⟩]
        simp only [List.length_cons]
        rw [ih ((c :: rest).drop pat.length) (pos + pat.length) hdlen]
      | false =>
        rw [matchPositionsFuel, if_neg (by rw [hsw]; exact Bool.false_ne_true),
          splitOnPatFuel,
          if_neg (fun hcond => by rw [hsw] at hcond; exact Bool.false_ne_true hcond.2)]
        cases hsp : splitOnPatFuel pat fuel rest with
        | nil => exact absurd hsp (splitOnPatFuel_ne_nil pat fuel rest)
        | cons m ms =>
          have := ih rest (pos + 1) hrest
          rw [hsp] at this
          simp only [List.length_cons] at this ⊢
          omega

/-!
Claim C3: counterexample, amended statement, and witness.
-/

theorem replaceSpecificTextCore_err (file old new : List Char)
    (h : (matchPositions (normEOL old) (normEOL file)).isEmpty = true) :
    replaceSpecificTextCore file old new = Except.error "no occurrences found" := by
  unfold replaceSpecificTextCore
  rw [if_pos h]

theorem replaceSpecificTextCore_ok_eval (file old new : List Char)
    (h : ¬(matchPositions (normEOL old) (normEOL file)).isEmpty = true) :
    replaceSpecificTextCore file old new =
      Except.ok (expandLF (detectLineEnding file)
          (jsReplaceAll (normEOL old) (normEOL new) (normEOL file)),
        (matchPositions (normEOL old) (normEOL file)).length) := by
  unfold replaceSpecificTextCore
  rw [if_neg h]

/-- Claim C3 counterexample: the replacement is not literal — JS
`String.replace` interprets `$` templates in the new text, so replacing
`"a"` by `"$&x"` in `"a"` yields `"ax"` (the match substituted for `$&`)
with count 1, not the literal `"$&x"` the claim's replace-every-occurrence
reading produces. -/
theorem replace_specific_text_dollar_template :
    replaceSpecificTextCore ['a'] ['a'] ['$', '&', 'x'] = Except.ok (['a', 'x'], 1) ∧
    specLiteralReplaceAll ['a'] ['$', '&', 'x'] ['a'] = ['$', '&', 'x'] ∧
    (['a', 'x'] : List Char) ≠ ['$', '&', 'x'] :=
  ⟨rfl, rfl, by decide⟩

/-- Claim C3 amended: the tool fails with the not-found failure exactly when
the normalized old text has no occurrence in the normalized content; and for
a nonempty normalized old text and a new text containing no `$`, every
occurrence is replaced literally — the result is the split-and-join literal
replace-all — and the reported count is the exact number of occurrences
(one less than the number of split pieces). -/
theorem replace_specific_text_literal_amended (file old new : List Char)
    (hold : ¬(normEOL old).isEmpty = true) (hnew : '$' ∉ normEOL new) :
    ((∃ p, replaceSpecificTextCore file old new = Except.ok p) ↔
      OccursIn (normEOL old) (normEOL file)) ∧
    (∀ r count, replaceSpecificTextCore file old new = Except.ok (r, count) →
      r = expandLF (detectLineEnding file)
          (specLiteralReplaceAll (normEOL old) (normEOL new) (normEOL file)) ∧
      count + 1 = (splitOnPat (normEOL old) (normEOL file)).length) := by
  have hiff := matchPositionsFuel_eq_nil_iff (normEOL old) ((normEOL file).length + 1)
    (normEOL file) 0 (by omega)
  by_cases hcond : (matchPositions (normEOL old) (normEOL file)).isEmpty = true
  · have herr := replaceSpecificTextCore_err file old new hcond
    constructor
    · rw [herr]
      constructor
      · rintro ⟨p, hp⟩
        exact absurd hp (by simp)
      · intro hocc
        have hnil : matchPositions (normEOL old) (normEOL file) = [] :=
          List.isEmpty_iff.mp hcond
        exact absurd hocc (hiff.mp hnil)
    · intro r count hk
      rw [herr] at hk
      exact absurd hk (by simp)
  · have hok := replaceSpecificTextCore_ok_eval file old new hcond
    constructor
    · constructor
      · intro _
        by_contra hno
        exact hcond (List.isEmpty_iff.mpr (hiff.mpr hno))
      · intro _
        exact ⟨_, hok⟩
    · intro r count hk
      rw [hok] at hk
      simp only [Except.ok.injEq, Prod.mk.injEq] at hk
      obtain ⟨hr, hcount⟩ := hk
      constructor
      · rw [← hr]
        congr 1
        rw [show jsReplaceAll (normEOL old) (normEOL new) (normEOL file) =
            jsRepFuel (normEOL old) (normEOL new) ((normEOL file).length + 1) []
              (normEOL file) from rfl,
          jsRepFuel_eq_intercalate (normEOL old) (normEOL new) hold hnew
            ((normEOL file).length + 1) (normEOL file) [] (by omega)]
        rfl
      · rw [← hcount]
        exact matchPositionsFuel_length (normEOL old) hold ((normEOL file).length + 1)
          (normEOL file) 0 (by omega)

theorem replace_specific_text_literal_amended_witness :
    (¬(normEOL ['f', 'o', 'o']).isEmpty = true ∧
      '$' ∉ normEOL ['b', 'a', 'r'] ∧
      replaceSpecificTextCore
          ['f', 'o', 'o', '.', 'f', 'o', 'o', '.', 'f', 'o', 'o'] ['f', 'o', 'o']
          ['b', 'a', 'r'] =
        Except.ok (['b', 'a', 'r', '.', 'b', 'a', 'r', '.', 'b', 'a', 'r'], 3) ∧
      replaceSpecificTextCore ['q', 'u', 'u', 'x'] ['f', 'o', 'o'] ['b', 'a', 'r'] =
        Except.error "no occurrences found") ∧
    (((∃ p, replaceSpecificTextCore
          ['f', 'o', 'o', '.', 'f', 'o', 'o', '.', 'f', 'o', 'o'] ['f', 'o', 'o']
          ['b', 'a', 'r'] = Except.ok p) ↔
        OccursIn (normEOL ['f', 'o', 'o'])
          (normEOL ['f', 'o', 'o', '.', 'f', 'o', 'o', '.', 'f', 'o', 'o'])) ∧
      (∀ r count, replaceSpecificTextCore
          ['f', 'o', 'o', '.', 'f', 'o', 'o', '.', 'f', 'o', 'o'] ['f', 'o', 'o']
          ['b', 'a', 'r'] = Except.ok (r, count) →
        r = expandLF
            (detectLineEnding ['f', 'o', 'o', '.', 'f', 'o', 'o', '.', 'f', 'o', 'o'])
            (specLiteralReplaceAll (normEOL ['f', 'o', 'o']) (normEOL ['b', 'a', 'r'])
              (normEOL ['f', 'o', 'o', '.', 'f', 'o', 'o', '.', 'f', 'o', 'o'])) ∧
        count + 1 = (splitOnPat (normEOL ['f', 'o', 'o'])
            (normEOL ['f', 'o', 'o', '.', 'f', 'o', 'o', '.', 'f', 'o', 'o'])).length)) :=
  ⟨⟨by decide, by decide, rfl, rfl⟩,
    replace_specific_text_literal_amended
      ['f', 'o', 'o', '.', 'f', 'o', 'o', '.', 'f', 'o', 'o'] ['f', 'o', 'o']
      ['b', 'a', 'r'] (by decide) (by decide)⟩

/-!
Claim C5 and its witness.
-/

/-- Claim C5: range replace fails with the invalid-range failure envelope
whenever `startLine < 1`, or `endLine` exceeds the LF-normalized line count,
or `startLine > endLine`; in every such case no write event is emitted — the
trace is exactly a read followed by the failure response, so the file
content is left unchanged. -/
theorem range_replace_invalid_range_rejected (path : String) (t c : List Char)
    (sl el off : Int) (writeOk cacheOk : Bool)
    (h : sl < 1 ∨ el > ((splitNL (normCRLF t)).length : Int) ∨ sl > el) :
    replaceFileContentAtPositionExec path t sl el c off writeOk cacheOk =
      ([Ev.read path, Ev.respond], failureEnv "Invalid line numbers") ∧
    ∀ txt, Ev.write path txt ∉
      (replaceFileContentAtPositionExec path t sl el c off writeOk cacheOk).1 := by
  have hcore : rangeReplaceCore t sl el c off = Except.error "Invalid line numbers" := by
    unfold rangeReplaceCore
    rw [if_pos h]
  refine ⟨?_, ?_⟩
  · unfold replaceFileContentAtPositionExec
    rw [hcore]
  · intro txt
    unfold replaceFileContentAtPositionExec
    rw [hcore]
    simp

theorem range_replace_invalid_range_rejected_witness :
    ((0 : Int) < 1 ∨ (1 : Int) > ((splitNL (normCRLF ['a', '\n', 'b'])).length : Int) ∨
        (0 : Int) > 1) ∧
    (replaceFileContentAtPositionExec "p" ['a', '\n', 'b'] 0 1 ['x'] 0 true true =
        ([Ev.read "p", Ev.respond], failureEnv "Invalid line numbers") ∧
      ∀ txt, Ev.write "p" txt ∉
        (replaceFileContentAtPositionExec "p" ['a', '\n', 'b'] 0 1 ['x'] 0 true true).1) :=
  ⟨Or.inl (by decide),
    range_replace_invalid_range_rejected "p" ['a', '\n', 'b'] ['x'] 0 1 0 true true
      (Or.inl (by decide))⟩

/-!
Claim C9.
-/

/-- Claim C9: append writes the existing file text byte-for-byte unchanged as
a prefix of the result (no normalization of existing content); only the
appended content is adapted (its line endings rewritten to the dominant
style of the existing text) before concatenation. -/
theorem append_preserves_existing_bytes (existing content : List Char) :
    appendCore existing content = existing ++ adaptLineEndings existing content ∧
    (appendCore existing content).take existing.length = existing ∧
    (appendCore existing content).drop existing.length =
      expandLF (detectLineEnding existing) (normEOL content) := by
  refine ⟨rfl, ?_, ?_⟩
  · simp [appendCore]
  · simp [appendCore, adaptLineEndings]

/-!
Claim C1 and its witness.
-/

theorem deferredWriteOrder_shape (path tool : String) (init : List Ev)
    (newText : List Char) (env : Envelope)
    (hr : Ev.respond ∉ init) (hc : ∀ t, Ev.cacheUpdate path t ∉ init)
    (he : env.isError = false) :
    DeferredWriteOrder path
      (fun cacheOk =>
        (init ++ [Ev.write path newText, Ev.respond] ++
            deferredCacheEvents path newText cacheOk tool, env)) := by
  refine ⟨rfl, he, ?_⟩
  intro cacheOk
  refine ⟨init ++ [Ev.write path newText], deferredCacheEvents path newText cacheOk tool,
    newText, ?_, ?_, ?_, ?_, ?_, ?_⟩
  · simp
  · simp [hr]
  · simp
  · intro t
    simp [hc t]
  · cases cacheOk <;> simp [deferredCacheEvents]
  · intro h
    subst h
    simp [deferredCacheEvents]

/-- Claim C1: for each of the five file-mutating tools, on the success path
the authoritative write happens strictly before the response is handed back,
the cache update is scheduled strictly after the response, a failed deferred
cache update leads to an invalidate of the same path, and the returned
envelope is the same success envelope whether or not the deferred update
fails (deferred failures are never surfaced). -/
theorem mutating_tools_deferred_write_protocol (path : String)
    (text t c fc old new existing content : List Char) (sl el off : Int)
    (hrange : ¬(sl < 1 ∨ el > ((splitNL (normCRLF t)).length : Int) ∨ sl > el))
    (hfound : (matchPositions (normEOL old) (normEOL fc)).isEmpty = false) :
    DeferredWriteOrder path (rewriteFileContentExec path text true) ∧
    DeferredWriteOrder path (createNewFileWithTextExec path text true) ∧
    DeferredWriteOrder path
      (fun cacheOk => replaceFileContentAtPositionExec path t sl el c off true cacheOk) ∧
    DeferredWriteOrder path
      (fun cacheOk => appendFileContentExec path true existing content true cacheOk) ∧
    DeferredWriteOrder path
      (fun cacheOk => replaceSpecificTextExec path fc old new true cacheOk) := by
  have hcore : rangeReplaceCore t sl el c off =
      Except.ok (rangeReplaceBuild t sl el c off) := by
    unfold rangeReplaceCore
    rw [if_neg hrange]
  refine ⟨?_, ?_, ?_, ?_, ?_⟩
  · exact deferredWriteOrder_shape path "rewrite_file_content" [] text
      (successEnv "rewritten") (by simp) (fun _ => by simp) rfl
  · exact deferredWriteOrder_shape path "create_new_file_with_text" [Ev.createDir path] text
      (successEnv "created") (by simp) (fun _ => by simp) rfl
  · have := deferredWriteOrder_shape path "replace_file_content_at_position" [Ev.read path]
      (rangeReplaceBuild t sl el c off) (successEnv "ok") (by simp) (fun _ => by simp) rfl
    simpa [replaceFileContentAtPositionExec, hcore] using this
  · exact deferredWriteOrder_shape path "append_file_content" [Ev.read path]
      (appendCore existing content) (successEnv "appended") (by simp) (fun _ => by simp) rfl
  · have hok : replaceSpecificTextCore fc old new =
        Except.ok
          (expandLF (detectLineEnding fc)
              (jsReplaceAll (normEOL old) (normEOL new) (normEOL fc)),
            (matchPositions (normEOL old) (normEOL fc)).length) := by
      unfold replaceSpecificTextCore
      rw [if_neg (by simp [hfound])]
    have := deferredWriteOrder_shape path "replace_specific_text" [Ev.read path]
      (expandLF (detectLineEnding fc)
        (jsReplaceAll (normEOL old) (normEOL new) (normEOL fc)))
      (successEnv "replaced") (by simp) (fun _ => by simp) rfl
    simpa [replaceSpecificTextExec, hok] using this

theorem mutating_tools_deferred_write_protocol_witness :
    (¬((1 : Int) < 1 ∨ (1 : Int) > ((splitNL (normCRLF ['a', '\n', 'b'])).length : Int) ∨
        (1 : Int) > 1) ∧
      (matchPositions (normEOL ['a']) (normEOL ['b', 'a'])).isEmpty = false) ∧
    (DeferredWriteOrder "p" (rewriteFileContentExec "p" ['x'] true) ∧
      DeferredWriteOrder "p" (createNewFileWithTextExec "p" ['x'] true) ∧
      DeferredWriteOrder "p"
        (fun cacheOk => replaceFileContentAtPositionExec "p" ['a', '\n', 'b'] 1 1 ['y'] 0 true cacheOk) ∧
      DeferredWriteOrder "p"
        (fun cacheOk => appendFileContentExec "p" true ['z'] ['w'] true cacheOk) ∧
      DeferredWriteOrder "p"
        (fun cacheOk => replaceSpecificTextExec "p" ['b', 'a'] ['a'] ['c'] true cacheOk)) :=
  ⟨⟨by decide, by decide⟩,
    mutating_tools_deferred_write_protocol "p" ['x'] ['a', '\n', 'b'] ['y'] ['b', 'a'] ['a']
      ['c'] ['z'] ['w'] 1 1 0 (by decide) (by decide)⟩

/-!
Claim C4 and its witness.
-/

/-- Claim C4: when the registered tool exists, a `null` return from the
before-phase makes the handler return the standardized cancellation failure
envelope without ever invoking the tool handler; and the handler is invoked
exactly when the before-phase returns a non-null context with no cached
response attached. -/
theorem cancellation_blocks_handler {α : Type} (lookup : String → Option (ToolModel α))
    (before : RequestContext α → Except String (Option (RequestContext α)))
    (after : RequestContext α → ResponseContext → Except String ResponseContext)
    (toolName : String) (params : α) (method path : String) (tool : ToolModel α)
    (hl : lookup toolName = some tool) :
    (before (RequestContext.mk toolName params method path none) = Except.ok none →
      handleToolExecution lookup before after toolName params method path =
        ([], Sent.json 200 (failureEnv "Request cancelled by interceptor"))) ∧
    (HEv.handlerInvoked toolName ∈
        (handleToolExecution lookup before after toolName params method path).1 ↔
      ∃ ctx, before (RequestContext.mk toolName params method path none) =
          Except.ok (some ctx) ∧ ctx.cachedResponse = none) := by
  constructor
  · intro hb
    unfold handleToolExecution
    rw [hl, hb]
  · unfold handleToolExecution
    rw [hl]
    cases hb : before (RequestContext.mk toolName params method path none) with
    | error e => simp
    | ok o =>
      cases o with
      | none => simp
      | some ctx =>
        cases hc : ctx.cachedResponse with
        | some cached => simp [hc]
        | none =>
          cases hh : tool.handle params with
          | error e =>
            constructor
            · intro _
              exact ⟨ctx, rfl, hc⟩
            · intro _
              simp [hc, hh]
          | ok result =>
            cases ha : after ctx (ResponseContext.mk result 200) with
            | error e =>
              constructor
              · intro _
                exact ⟨ctx, rfl, hc⟩
              · intro _
                simp [hc, hh, ha]
            | ok rc =>
              constructor
              · intro _
                exact ⟨ctx, rfl, hc⟩
              · intro _
                simp [hc, hh, ha]

theorem cancellation_blocks_handler_witness :
    ((fun s => if s = "t" then some (ToolModel.mk (fun (_ : Unit) => Except.ok (successEnv "r")))
        else none) "t" =
      some (ToolModel.mk (fun (_ : Unit) => Except.ok (successEnv "r")))) ∧
    (((fun _ => Except.ok none :
          RequestContext Unit → Except String (Option (RequestContext Unit)))
            (RequestContext.mk "t" () "POST" "/mcp/t" none) = Except.ok none →
        handleToolExecution
          (fun s => if s = "t" then
            some (ToolModel.mk (fun (_ : Unit) => Except.ok (successEnv "r"))) else none)
          (fun _ => Except.ok none) (fun _ rc => Except.ok rc) "t" () "POST" "/mcp/t" =
          ([], Sent.json 200 (failureEnv "Request cancelled by interceptor"))) ∧
      (HEv.handlerInvoked "t" ∈
          (handleToolExecution
            (fun s => if s = "t" then
              some (ToolModel.mk (fun (_ : Unit) => Except.ok (successEnv "r"))) else none)
            (fun _ => Except.ok none) (fun _ rc => Except.ok rc) "t" () "POST" "/mcp/t").1 ↔
        ∃ ctx, (fun _ => Except.ok none :
            RequestContext Unit → Except String (Option (RequestContext Unit)))
              (RequestContext.mk "t" () "POST" "/mcp/t" none) =
            Except.ok (some ctx) ∧ ctx.cachedResponse = none)) :=
  ⟨by simp,
    cancellation_blocks_handler
      (fun s => if s = "t" then
        some (ToolModel.mk (fun (_ : Unit) => Except.ok (successEnv "r"))) else none)
      (fun _ => Except.ok none) (fun _ rc => Except.ok rc) "t" () "POST" "/mcp/t"
      (ToolModel.mk (fun (_ : Unit) => Except.ok (successEnv "r"))) (by simp)⟩

/-!
Claim C7 and its witness.
-/

/-- Claim C7: a thrown tool-handler error is caught by the request handler
and converted into a failure envelope (for `executeToolDirect` the failure
envelope carrying the error message; for `handleToolExecution` the
`handleServerError` failure envelope), never propagating as a transport
fault; and an unregistered tool name likewise yields a failure envelope. -/
theorem handler_errors_become_failure_envelopes {α : Type}
    (lookupA lookupB : String → Option (ToolModel α))
    (before : RequestContext α → Except String (Option (RequestContext α)))
    (after : RequestContext α → ResponseContext → Except String ResponseContext)
    (toolName : String) (params args : α) (method path : String)
    (tool : ToolModel α) (e : String) (ctx : RequestContext α)
    (hnone : lookupA toolName = none)
    (hsome : lookupB toolName = some tool)
    (hb : before (RequestContext.mk toolName params method path none) =
      Except.ok (some ctx))
    (hc : ctx.cachedResponse = none)
    (hthrow : ∀ x : α, tool.handle x = Except.error e) :
    (executeToolDirect lookupA toolName args = failureEnv ("Unknown tool: " ++ toolName) ∧
      (executeToolDirect lookupA toolName args).isError = true) ∧
    (handleToolExecution lookupA before after toolName params method path =
      ([], Sent.json 404 (failureEnv ("Unknown tool: " ++ toolName)))) ∧
    (executeToolDirect lookupB toolName args = failureEnv e ∧
      (executeToolDirect lookupB toolName args).isError = true) ∧
    ((handleToolExecution lookupB before after toolName params method path).2 =
        handleServerErrorModel ("Error executing tool " ++ toolName) e ∧
      ((handleToolExecution lookupB before after toolName params method path).2).envelope.isError
        = true) := by
  refine ⟨⟨?_, ?_⟩, ?_, ⟨?_, ?_⟩, ?_, ?_⟩
  · simp [executeToolDirect, hnone]
  · simp [executeToolDirect, hnone, failureEnv]
  · simp [handleToolExecution, hnone]
  · simp [executeToolDirect, hsome, hthrow args]
  · simp [executeToolDirect, hsome, hthrow args, failureEnv]
  · simp [handleToolExecution, hsome, hb, hc, hthrow params]
  · simp [handleToolExecution, hsome, hb, hc, hthrow params, handleServerErrorModel,
      Sent.envelope, failureEnv]

theorem handler_errors_become_failure_envelopes_witness :
    ((fun (_ : String) => (none : Option (ToolModel Unit))) "t" = none ∧
      (fun s => if s = "t" then some (ToolModel.mk (fun (_ : Unit) => Except.error "boom"))
        else none) "t" =
        some (ToolModel.mk (fun (_ : Unit) => Except.error "boom")) ∧
      ((fun c => Except.ok (some c) :
          RequestContext Unit → Except String (Option (RequestContext Unit)))
          (RequestContext.mk "t" () "POST" "/mcp/t" none) =
        Except.ok (some (RequestContext.mk "t" () "POST" "/mcp/t" none))) ∧
      (RequestContext.mk "t" () "POST" "/mcp/t"
        (none : Option Envelope)).cachedResponse = none ∧
      (∀ x : Unit, (ToolModel.mk (fun (_ : Unit) => Except.error "boom")).handle x =
        Except.error "boom")) ∧
    ((executeToolDirect (fun (_ : String) => (none : Option (ToolModel Unit))) "t" () =
        failureEnv ("Unknown tool: " ++ "t") ∧
      (executeToolDirect (fun (_ : String) => (none : Option (ToolModel Unit)))
        "t" ()).isError = true) ∧
    (handleToolExecution (fun (_ : String) => (none : Option (ToolModel Unit)))
        (fun c => Except.ok (some c)) (fun _ rc => Except.ok rc) "t" () "POST" "/mcp/t" =
      ([], Sent.json 404 (failureEnv ("Unknown tool: " ++ "t")))) ∧
    (executeToolDirect
        (fun s => if s = "t" then some (ToolModel.mk (fun (_ : Unit) => Except.error "boom"))
          else none) "t" () = failureEnv "boom" ∧
      (executeToolDirect
        (fun s => if s = "t" then some (ToolModel.mk (fun (_ : Unit) => Except.error "boom"))
          else none) "t" ()).isError = true) ∧
    ((handleToolExecution
        (fun s => if s = "t" then some (ToolModel.mk (fun (_ : Unit) => Except.error "boom"))
          else none)
        (fun c => Except.ok (some c)) (fun _ rc => Except.ok rc) "t" () "POST" "/mcp/t").2 =
        handleServerErrorModel ("Error executing tool " ++ "t") "boom" ∧
      ((handleToolExecution
        (fun s => if s = "t" then some (ToolModel.mk (fun (_ : Unit) => Except.error "boom"))
          else none)
        (fun c => Except.ok (some c)) (fun _ rc => Except.ok rc)
        "t" () "POST" "/mcp/t").2).envelope.isError = true)) :=
  ⟨⟨rfl, by simp, rfl, rfl, fun _ => rfl⟩,
    handler_errors_become_failure_envelopes
      (fun (_ : String) => (none : Option (ToolModel Unit)))
      (fun s => if s = "t" then some (ToolModel.mk (fun (_ : Unit) => Except.error "boom"))
        else none)
      (fun c => Except.ok (some c)) (fun _ rc => Except.ok rc) "t" () () "POST" "/mcp/t"
      (ToolModel.mk (fun (_ : Unit) => Except.error "boom")) "boom"
      (RequestContext.mk "t" () "POST" "/mcp/t" none)
      rfl (by simp) rfl rfl (fun _ => rfl)⟩

/-!
Claim C10 and its witness.
-/

/-- Claim C10: for a successful read, the returned content is the first
`effectiveMaxCharacters` characters with `truncated = true` when the decoded
text is longer than the effective limit, and the full text with
`truncated = false` otherwise; the structured `length` equals the returned
text's length, `totalLength` the full text's length, the returned content is
always a prefix of the full text, and `isError` is false. -/
theorem get_file_text_truncation (pathInProject : String) (encoding : Option String)
    (fullText : List Char) (maxCharacters : Option Int)
    (henc : isEncodingUnsupported encoding = false) :
    ∃ s : GetFileStructured,
      getFileTextByPathExecute pathInProject encoding fullText maxCharacters =
        Envelope.mk [McpContentItem.mk "text" (String.mk s.content)] false (some s) ∧
      ((fullText.length : Int) > effectiveMaxCharacters maxCharacters →
        s.content = fullText.take (effectiveMaxCharacters maxCharacters).toNat ∧
        s.truncated = true) ∧
      (¬((fullText.length : Int) > effectiveMaxCharacters maxCharacters) →
        s.content = fullText ∧ s.truncated = false) ∧
      s.length = s.content.length ∧
      s.totalLength = fullText.length ∧
      s.content.length = min fullText.length (effectiveMaxCharacters maxCharacters).toNat ∧
      fullText.take s.content.length = s.content := by
  by_cases h : (fullText.length : Int) > effectiveMaxCharacters maxCharacters
  · refine ⟨GetFileStructured.mk pathInProject "utf-8"
      (fullText.take (effectiveMaxCharacters maxCharacters).toNat) true
      (fullText.take (effectiveMaxCharacters maxCharacters).toNat).length
      fullText.length (effectiveMaxCharacters maxCharacters), ?_, ?_, ?_, rfl, rfl, ?_, ?_⟩
    · unfold getFileTextByPathExecute
      rw [henc]
      simp only [Bool.false_eq_true, if_false, if_pos h]
    · exact fun _ => ⟨rfl, rfl⟩
    · exact fun hn => absurd h hn
    · rw [List.length_take]
      exact Nat.min_comm ..
    · show fullText.take (fullText.take _).length = _
      rw [List.length_take]
      have hk : (effectiveMaxCharacters maxCharacters).toNat ≤ fullText.length := by omega
      congr 1
      omega
  · refine ⟨GetFileStructured.mk pathInProject "utf-8" fullText false
      fullText.length fullText.length (effectiveMaxCharacters maxCharacters),
      ?_, ?_, ?_, rfl, rfl, ?_, ?_⟩
    · unfold getFileTextByPathExecute
      rw [henc]
      simp only [Bool.false_eq_true, if_false, if_neg h]
    · exact fun hp => absurd hp h
    · exact fun _ => ⟨rfl, rfl⟩
    · show fullText.length = min fullText.length (effectiveMaxCharacters maxCharacters).toNat
      have hk : fullText.length ≤ (effectiveMaxCharacters maxCharacters).toNat := by omega
      omega
    · exact List.take_length fullText

theorem get_file_text_truncation_witness :
    isEncodingUnsupported none = false ∧
    (∃ s : GetFileStructured,
      getFileTextByPathExecute "p" none ['a', 'b'] (some 1) =
        Envelope.mk [McpContentItem.mk "text" (String.mk s.content)] false (some s) ∧
      (((['a', 'b'] : List Char).length : Int) > effectiveMaxCharacters (some 1) →
        s.content = (['a', 'b'] : List Char).take (effectiveMaxCharacters (some 1)).toNat ∧
        s.truncated = true) ∧
      (¬((((['a', 'b'] : List Char)).length : Int) > effectiveMaxCharacters (some 1)) →
        s.content = ['a', 'b'] ∧ s.truncated = false) ∧
      s.length = s.content.length ∧
      s.totalLength = (['a', 'b'] : List Char).length ∧
      s.content.length =
        min (['a', 'b'] : List Char).length (effectiveMaxCharacters (some 1)).toNat ∧
      (['a', 'b'] : List Char).take s.content.length = s.content) :=
  ⟨rfl, get_file_text_truncation "p" none ['a', 'b'] (some 1) rfl⟩

end GgMcp
